import Mathlib

/-!
Verification development for the CardtoImagePlugin conversion pipeline
(`src/plugin.ts`, `src/types.ts`).

The plugin converts a card document to a PNG/JPG image: it validates and
merges options, calls an external HTML generator, inlines external
resources into the HTML with JavaScript `String.replace` over three regex
shapes, renders the page in a headless browser and reports dimensions.

The embedding below mirrors the TypeScript source:
* JavaScript regex matching (the three concrete patterns built by
  `_inlineResources`) is modelled by a small backtracking matcher over
  `List Char` with JS semantics: leftmost match, greedy star with
  backtracking, case-insensitive literal comparison (ASCII, matching the
  `i` flag for the ASCII strings that occur), `$`-expansion in the
  replacement string, and global (`g`) replacement that continues after
  each match without rescanning replacements.
* JS numbers appearing in options are modelled as `Rat`; DOM pixel
  extents (`scrollWidth` etc.) are integers and modelled as `Nat`;
  `Math.round` is `jsRound`.
* Effects (progress callbacks, the HTML-generator call, browser launch,
  file writes) are recorded in explicit event traces; external outcomes
  (HTML generator result, page errors, screenshot bytes, wall-clock
  durations) are supplied by environment records.
-/

/-- ASCII uppercase test, `A`–`Z` by code point. -/
def upperA (c : Char) : Bool := 65 ≤ c.toNat && c.toNat ≤ 90

/-- Case-insensitive character comparison as performed by a JS regex with the
`i` flag on ASCII input: equal, or equal up to the 32-offset ASCII case map. -/
def charEqCI (a b : Char) : Bool :=
  decide (a = b) || (upperA a && decide (b.toNat = a.toNat + 32))
    || (upperA b && decide (a.toNat = b.toNat + 32))

/-- Strip a case-insensitive literal prefix, returning the remainder. -/
def stripCI : List Char → List Char → Option (List Char)
  | [], cs => some cs
  | _ :: _, [] => none
  | p :: ps, c :: cs => if charEqCI p c then stripCI ps cs else none

/-- One item of the regex patterns built by `_inlineResources`:
a case-insensitive literal (`theme\.css`, `href=`, filenames inserted after
`_escapeRegex`, hence matched literally), a single-character class
(`["']`), a greedy star over a character class (`[^>]*`, `[^"']*`), or the
capturing two-literal alternation `(src|href)`. -/
inductive RItem
  | lit (l : List Char)
  | cls (p : Char → Bool)
  | starCls (p : Char → Bool)
  | grpAlt2 (a b : List Char)

/-- Remainders after consuming a maximal-first run of class characters:
greedy order, longest consumption first, as a JS greedy star backtracks. -/
def starSuffixes (p : Char → Bool) : List Char → List (List Char)
  | [] => [[]]
  | c :: cs => if p c then starSuffixes p cs ++ [c :: cs] else [c :: cs]

/-- First successful continuation over a list of candidate remainders. -/
def firstSome (f : List Char → Option (List Char × List (List Char))) :
    List (List Char) → Option (List Char × List (List Char))
  | [] => none
  | c :: cs =>
    match f c with
    | some r => some r
    | none => firstSome f cs

/-- Backtracking matcher for a sequence of items against a prefix of the
input, in JS backtracking order; returns the remainder after the first
successful parse together with the captured groups.  The `Nat` fuel always
equals the item-list length (every recursive call drops exactly one item),
so the `0, _ :: _` case is unreachable; it makes the recursion structural. -/
def matchGo : Nat → List RItem → List Char → Option (List Char × List (List Char))
  | _, [], cs => some (cs, [])
  | 0, _ :: _, _ => none
  | n + 1, RItem.lit l :: rest, cs =>
    match stripCI l cs with
    | some cs2 => matchGo n rest cs2
    | none => none
  | _ + 1, RItem.cls _ :: _, [] => none
  | n + 1, RItem.cls p :: rest, c :: cs =>
    if p c then matchGo n rest cs else none
  | n + 1, RItem.starCls p :: rest, cs =>
    firstSome (matchGo n rest) (starSuffixes p cs)
  | n + 1, RItem.grpAlt2 a b :: rest, cs =>
    match
      (match stripCI a cs with
       | some cs2 =>
         (match matchGo n rest cs2 with
          | some (r, caps) => some (r, cs.take a.length :: caps)
          | none => none)
       | none => none) with
    | some r => some r
    | none =>
      match stripCI b cs with
      | some cs2 =>
        (match matchGo n rest cs2 with
         | some (r, caps) => some (r, cs.take b.length :: caps)
         | none => none)
      | none => none

/-- Match a whole pattern at the start of the input. -/
def matchItems (pat : List RItem) (cs : List Char) :
    Option (List Char × List (List Char)) :=
  matchGo pat.length pat cs

/-- Leftmost match of a pattern: start index, matched length, captures —
the search a JS regex performs before each replacement. -/
def findM (pat : List RItem) : List Char → Option (Nat × Nat × List (List Char))
  | [] =>
    match matchItems pat [] with
    | some (rem, caps) => some (0, 0 - rem.length, caps)
    | none => none
  | c :: cs2 =>
    match matchItems pat (c :: cs2) with
    | some (rem, caps) => some (0, (c :: cs2).length - rem.length, caps)
    | none =>
      match findM pat cs2 with
      | some (i, len, caps) => some (i + 1, len, caps)
      | none => none

/-- JS `GetSubstitution`: expand `$$`, `$&`, ``$` ``, `$'` and `$n` in a
replacement string (`m` the matched text, `b` the original text before the
match, `a` the text after, `caps` the captured groups). -/
def expandRep : List Char → List Char → List Char → List Char → List (List Char) → List Char
  | [], _, _, _, _ => []
  | c :: tl, m, b, a, caps =>
    if c = '$' then
      match tl with
      | [] => ['$']
      | d :: tl2 =>
        if d = '$' then '$' :: expandRep tl2 m b a caps
        else if d = '&' then m ++ expandRep tl2 m b a caps
        else if d = Char.ofNat 96 then b ++ expandRep tl2 m b a caps
        else if d = Char.ofNat 39 then a ++ expandRep tl2 m b a caps
        else if d.isDigit ∧ 1 ≤ d.toNat - 48 ∧ d.toNat - 48 ≤ caps.length then
          caps.getD (d.toNat - 49) [] ++ expandRep tl2 m b a caps
        else c :: expandRep (d :: tl2) m b a caps
    else c :: expandRep tl m b a caps

/-- Global JS `String.replace`: repeatedly take the leftmost match, emit the
expanded replacement, and continue after the match (replacements are not
rescanned).  `before` accumulates the original text already passed, for
``$` ``.  The fuel starts at the input length; every iteration consumes at
least one character (the patterns used here never match the empty string, and
a zero-length match conservatively stops), so it never runs out. -/
def replaceGo (pat : List RItem) (rep : List Char) :
    Nat → List Char → List Char → List Char
  | 0, _, s => s
  | fuel + 1, before, s =>
    match findM pat s with
    | none => s
    | some (i, len, caps) =>
      if len = 0 then s
      else
        s.take i
          ++ expandRep rep ((s.drop i).take len) (before ++ s.take i)
              (s.drop (i + len)) caps
          ++ replaceGo pat rep fuel (before ++ s.take (i + len)) (s.drop (i + len))

/-- `html.replace(re, rep)` with a global regex, on strings. -/
def replaceAllJS (pat : List RItem) (rep : String) (s : String) : String :=
  String.mk (replaceGo pat rep.data s.data.length [] s.data)

/-- Character class `[^>]`. -/
def notGt (c : Char) : Bool := !(c == '>')

/-- Character class `["']` (single quote written by code point). -/
def isQuoteC (c : Char) : Bool := c == '"' || c == Char.ofNat 39

/-- Character class `[^"']`. -/
def notQuote (c : Char) : Bool := !(c == '"' || c == Char.ofNat 39)

/-- The stylesheet-link pattern of `_inlineResources`:
`<link[^>]*href=["'][^"']*FILENAME["'][^>]*>` with the `i` flag, where
`FILENAME` has been passed through `_escapeRegex` and hence matches
literally.  With `FILENAME = theme.css` this is the `theme.css` pattern of
the first inlining step; the other CSS entries use their basename. -/
def linkRe (filename : String) : List RItem :=
  [RItem.lit "<link".data, RItem.starCls notGt, RItem.lit "href=".data,
   RItem.cls isQuoteC, RItem.starCls notQuote, RItem.lit filename.data,
   RItem.cls isQuoteC, RItem.starCls notGt, RItem.lit ">".data]

/-- The image-reference pattern of `_inlineResources`:
`(src|href)=["']([^"']*FILENAME)["']` with the `i` flag (the second group is
never referenced by the replacement and is not captured here). -/
def imgRe (filename : String) : List RItem :=
  [RItem.grpAlt2 "src".data "href".data, RItem.lit "=".data, RItem.cls isQuoteC,
   RItem.starCls notQuote, RItem.lit filename.data, RItem.cls isQuoteC]

/-- What a successful parse of an item sequence consumes: `Consumes items cs
rest` says the matcher can take `cs` apart into one consumed block per item,
leaving exactly `rest` — a literal consumes a case-insensitive copy of
itself, a class one admissible character, a star a run of admissible
characters, and the alternation one of its two literals. -/
def Consumes : List RItem → List Char → List Char → Prop
  | [], cs, rest => cs = rest
  | RItem.lit l :: its, cs, rest =>
    ∃ pre cs2, cs = pre ++ cs2
      ∧ List.Forall₂ (fun a b => charEqCI a b = true) l pre
      ∧ Consumes its cs2 rest
  | RItem.cls p :: its, cs, rest =>
    ∃ c cs2, cs = c :: cs2 ∧ p c = true ∧ Consumes its cs2 rest
  | RItem.starCls p :: its, cs, rest =>
    ∃ pre cs2, cs = pre ++ cs2 ∧ (∀ x ∈ pre, p x = true) ∧ Consumes its cs2 rest
  | RItem.grpAlt2 a b :: its, cs, rest =>
    ∃ pre cs2, cs = pre ++ cs2
      ∧ (List.Forall₂ (fun x y => charEqCI x y = true) a pre
        ∨ List.Forall₂ (fun x y => charEqCI x y = true) b pre)
      ∧ Consumes its cs2 rest

/-- The pieces a global replace cuts the input into: each piece is (text
before the match, matched text), and the engine finds each match leftmost in
what remains — `findM` on the piece plus everything after it returns exactly
that piece boundary. -/
def LeftmostCover (pat : List RItem) : List (List Char × List Char) → List Char → Prop
  | [], _ => True
  | p :: ps, tail =>
    (∃ caps, findM pat (p.1 ++ p.2 ++ ((ps.map (fun q => q.1 ++ q.2)).join ++ tail))
        = some (p.1.length, p.2.length, caps))
    ∧ LeftmostCover pat ps tail

/-- Content of one entry of the HTML generator's file map: a JS string or a
`Uint8Array` (bytes as naturals, reduced mod 256 where used). -/
inductive FileContent
  | text (s : String)
  | bytes (b : List Nat)

/-- The `Map<string, string | Uint8Array>` of generated files, as an
association list in insertion order with unique keys. -/
def FileSet := List (String × FileContent)

/-- `files.get(k)`: first entry with the given key. -/
def lookupFS (files : FileSet) (k : String) : Option FileContent :=
  (files.find? (fun e => e.1 == k)).map (·.2)

/-- The inline `<style>` block `_inlineResources` substitutes for a link tag. -/
def styleTagOf (css : String) : String :=
  "<style type=\"text/css\">\n" ++ css ++ "\n</style>"

/-- `String.endsWith`, written over the character lists so that it evaluates
in the kernel (the library version does not reduce). -/
def endsWithS (p sfx : String) : Bool :=
  p.data.drop (p.data.length - sfx.data.length) == sfx.data

/-- ASCII lower-casing of one character (`String.toLowerCase` on the ASCII
file names handled here; other characters unchanged). -/
def lowerChar (c : Char) : Char :=
  if upperA c then Char.ofNat (c.toNat + 32) else c

/-- `String.toLowerCase`, over the character list. -/
def toLowerS (s : String) : String := String.mk (s.data.map lowerChar)

/-- JS `String.split(sep)` with a one-character separator. -/
def splitOnC (sep : Char) : List Char → List (List Char)
  | [] => [[]]
  | c :: cs =>
    let r := splitOnC sep cs
    if c = sep then [] :: r
    else (c :: r.headD []) :: r.tail

/-- `filePath.split('/').pop() ?? ''`. -/
def basename (p : String) : String := String.mk ((splitOnC '/' p.data).getLastD [])

/-- `_isImagePath`: the path matches `\.(png|jpg|jpeg|gif|webp|svg|ico|bmp)$/i`. -/
def _isImagePath (p : String) : Bool :=
  ["png", "jpg", "jpeg", "gif", "webp", "svg", "ico", "bmp"].any
    (fun e => endsWithS (toLowerS p) ("." ++ e))

/-- The extension table of `_getMimeType`. -/
def mimeTypes : List (String × String) :=
  [("png", "image/png"), ("jpg", "image/jpeg"), ("jpeg", "image/jpeg"),
   ("gif", "image/gif"), ("webp", "image/webp"), ("svg", "image/svg+xml"),
   ("ico", "image/x-icon"), ("bmp", "image/bmp")]

/-- `_getMimeType`: look up `path.split('.').pop()?.toLowerCase() ?? ''`,
defaulting to `application/octet-stream`. -/
def _getMimeType (p : String) : String :=
  ((mimeTypes.find? (fun e =>
    e.1 == toLowerS (String.mk ((splitOnC '.' p.data).getLastD [])))).map
    (·.2)).getD "application/octet-stream"

/-- The base64 alphabet. -/
def b64c (n : Nat) : Char :=
  "ABCDEFGHIJKLMNOPQRSTUVWXYZabcdefghijklmnopqrstuvwxyz0123456789+/".data.getD n 'A'

/-- `_uint8ArrayToBase64`: standard padded base64 (both the Node `Buffer`
branch and the `btoa` branch of the source produce this). -/
def _uint8ArrayToBase64 : List Nat → String
  | [] => ""
  | [x] =>
    let b1 := x % 256
    String.mk [b64c (b1 / 4), b64c (b1 % 4 * 16)] ++ "=="
  | [x, y] =>
    let b1 := x % 256
    let b2 := y % 256
    String.mk [b64c (b1 / 4), b64c (b1 % 4 * 16 + b2 / 16), b64c (b2 % 16 * 4)] ++ "="
  | x :: y :: z :: rest =>
    let b1 := x % 256
    let b2 := y % 256
    let b3 := z % 256
    String.mk [b64c (b1 / 4), b64c (b1 % 4 * 16 + b2 / 16),
      b64c (b2 % 16 * 4 + b3 / 64), b64c (b3 % 64)] ++ _uint8ArrayToBase64 rest

/-- The replacement string `$1="data:MIME;base64,DATA"` used for images. -/
def imgReplacement (path : String) (bs : List Nat) : String :=
  "$1=\"data:" ++ _getMimeType path ++ ";base64," ++ _uint8ArrayToBase64 bs ++ "\""

/-- Step 1 of `_inlineResources`: inline `theme.css` when present as a
(non-empty, by JS truthiness) string. -/
def themePass (html : String) (files : FileSet) : String :=
  match lookupFS files "theme.css" with
  | some (FileContent.text css) =>
    if css = "" then html else replaceAllJS (linkRe "theme.css") (styleTagOf css) html
  | _ => html

/-- Step 2 of `_inlineResources`, one file entry: inline another `.css` text
entry by basename. -/
def cssPassStep (acc : String) (e : String × FileContent) : String :=
  match e.2 with
  | FileContent.text content =>
    if endsWithS e.1 ".css" && !(e.1 == "theme.css") then
      replaceAllJS (linkRe (basename e.1)) (styleTagOf content) acc
    else acc
  | _ => acc

/-- Step 3 of `_inlineResources`, one file entry: inline an image byte entry
as a base64 data URL. -/
def imgPassStep (acc : String) (e : String × FileContent) : String :=
  match e.2 with
  | FileContent.bytes bs =>
    if _isImagePath e.1 then
      replaceAllJS (imgRe (basename e.1)) (imgReplacement e.1 bs) acc
    else acc
  | _ => acc

/-- `_inlineResources(html, files)`: the theme pass, then the loop over other
CSS entries, then the loop over image entries, in file-map order. -/
def _inlineResources (html : String) (files : FileSet) : String :=
  files.foldl imgPassStep (files.foldl cssPassStep (themePass html files))

/-- The patterns `_inlineResources` would apply for a given file set, in
pass order: used to express "no remaining external reference". -/
def inlinePatterns (files : FileSet) : List (List RItem) :=
  (match lookupFS files "theme.css" with
   | some (FileContent.text css) => if css = "" then [] else [linkRe "theme.css"]
   | _ => []) ++
  files.filterMap (fun e =>
    match e.2 with
    | FileContent.text _ =>
      if endsWithS e.1 ".css" && !(e.1 == "theme.css") then some (linkRe (basename e.1))
      else none
    | _ => none) ++
  files.filterMap (fun e =>
    match e.2 with
    | FileContent.bytes _ =>
      if _isImagePath e.1 then some (imgRe (basename e.1)) else none
    | _ => none)

/-- `ImageConversionOptions` (`src/types.ts`): every field optional
(`none` = key absent).  JS numbers are `Rat`; the `onProgress` callback is
modelled by its presence flag (the orchestrator only checks truthiness and
invokes it; deliveries are recorded in the event trace). -/
structure ImageConversionOptions where
  format : Option String := none
  quality : Option Rat := none
  scale : Option Rat := none
  width : Option Rat := none
  height : Option Rat := none
  backgroundColor : Option String := none
  transparent : Option Bool := none
  waitTime : Option Rat := none
  outputPath : Option String := none
  themeId : Option String := none
  hasOnProgress : Bool := false
deriving DecidableEq

/-- `DEFAULT_OPTIONS` from `plugin.ts`. -/
def DEFAULT_OPTIONS : ImageConversionOptions :=
  { format := some "png", quality := some 90, scale := some 1,
    backgroundColor := some "#ffffff", transparent := some false,
    waitTime := some 1000 }

/-- `_mergeOptions`: the shallow spread `{...DEFAULT_OPTIONS, ...options}`
(for a caller that does not pass explicitly-`undefined` keys, which the
`Option` model identifies with absent keys). -/
def _mergeOptions (o : ImageConversionOptions) : ImageConversionOptions :=
  { format := o.format <|> DEFAULT_OPTIONS.format
    quality := o.quality <|> DEFAULT_OPTIONS.quality
    scale := o.scale <|> DEFAULT_OPTIONS.scale
    width := o.width
    height := o.height
    backgroundColor := o.backgroundColor <|> DEFAULT_OPTIONS.backgroundColor
    transparent := o.transparent <|> DEFAULT_OPTIONS.transparent
    waitTime := o.waitTime <|> DEFAULT_OPTIONS.waitTime
    outputPath := o.outputPath
    themeId := o.themeId
    hasOnProgress := o.hasOnProgress }

/-- Decimal rendering of the JS numbers interpolated into validation
messages.  The values exercised here are integers, rendered as JS renders
them; non-integral rationals fall back to Lean's `num/den` notation. -/
def ratStr (q : Rat) : String :=
  if q.den = 1 then toString q.num else toString q

/-- The `format` check of `validateOptions` (JS truthiness: an empty string
is falsy and skips the check). -/
def formatErrs (o : ImageConversionOptions) : List String :=
  match o.format with
  | some f =>
    if f != "" && !(["png", "jpg", "jpeg"].contains f) then
      ["不支持的图片格式: " ++ f ++ "，支持: png, jpg, jpeg"]
    else []
  | none => []

/-- The `quality` range check of `validateOptions`. -/
def qualityErrs (o : ImageConversionOptions) : List String :=
  match o.quality with
  | some q =>
    if q < 1 ∨ q > 100 then ["质量参数必须在 1-100 之间，当前值: " ++ ratStr q]
    else []
  | none => []

/-- The PNG-ignores-quality warning of `validateOptions`. -/
def qualityWarns (o : ImageConversionOptions) : List String :=
  match o.quality with
  | some _ => if o.format == some "png" then ["PNG 格式忽略质量参数"] else []
  | none => []

/-- The `scale` range check of `validateOptions`. -/
def scaleErrs (o : ImageConversionOptions) : List String :=
  match o.scale with
  | some s =>
    if s ≤ 0 ∨ s > 4 then ["缩放比例必须在 0-4 之间，当前值: " ++ ratStr s]
    else []
  | none => []

/-- The `width` check of `validateOptions`. -/
def widthErrs (o : ImageConversionOptions) : List String :=
  match o.width with
  | some w => if w ≤ 0 then ["宽度必须为正数，当前值: " ++ ratStr w] else []
  | none => []

/-- The `height` check of `validateOptions`. -/
def heightErrs (o : ImageConversionOptions) : List String :=
  match o.height with
  | some h => if h ≤ 0 then ["高度必须为正数，当前值: " ++ ratStr h] else []
  | none => []

/-- The `waitTime` check of `validateOptions`. -/
def waitErrs (o : ImageConversionOptions) : List String :=
  match o.waitTime with
  | some t => if t < 0 then ["等待时间不能为负数，当前值: " ++ ratStr t] else []
  | none => []

/-- The transparent-with-non-PNG warning of `validateOptions`. -/
def transparentWarns (o : ImageConversionOptions) : List String :=
  if o.transparent == some true && !(o.format == some "png") then
    ["透明背景仅对 PNG 格式有效"]
  else []

/-- `ImageValidationResult` (`src/types.ts`). -/
structure ImageValidationResult where
  valid : Bool
  errors : Option (List String)
  warnings : Option (List String)
deriving DecidableEq

/-- `validateOptions`: the checks run in source order, each pushing onto the
`errors`/`warnings` arrays; the arrays are returned only when non-empty. -/
def validateOptions (o : ImageConversionOptions) : ImageValidationResult :=
  let errors := formatErrs o ++ qualityErrs o ++ scaleErrs o ++ widthErrs o
    ++ heightErrs o ++ waitErrs o
  let warnings := qualityWarns o ++ transparentWarns o
  { valid := errors.length == 0
    errors := if errors.length > 0 then some errors else none
    warnings := if warnings.length > 0 then some warnings else none }

/-- JS `Math.round`: floor of `q + 1/2` (half-up, also for negatives),
written with integer arithmetic so that it evaluates in the kernel
(`Rat` addition is irreducible); `jsRound_eq` below identifies it with
`⌊q + 1/2⌋`. -/
def jsRound (q : Rat) : Int := (2 * q.num + q.den) / (2 * (q.den : Int))

/-- The five horizontal extents read by `page.evaluate`, maximised in source
order. -/
def measuredWidth (bodyScrollW bodyOffsetW htmlClientW htmlScrollW htmlOffsetW : Nat) : Nat :=
  Nat.max bodyScrollW (Nat.max bodyOffsetW (Nat.max htmlClientW
    (Nat.max htmlScrollW htmlOffsetW)))

/-- Events of one `_renderHTMLToImage` call, in order of occurrence. -/
inductive REv
  | importP
  | launch
  | newPage
  | setViewport
  | setContent (html : String)
  | waitDelay
  | evalDims
  | takeShot
  | closeB
deriving DecidableEq

/-- Environment of one `_renderHTMLToImage` call: whether the dynamic
`import('puppeteer')` succeeds, whether some page operation between
`newPage` and the screenshot throws (and with which message), the DOM
extents reported by `page.evaluate`, and the screenshot bytes. -/
structure RenderEnv where
  puppeteerOk : Bool
  pageError : Option String
  bodyScrollW : Nat
  bodyOffsetW : Nat
  htmlClientW : Nat
  htmlScrollW : Nat
  htmlOffsetW : Nat
  bodyScrollH : Nat
  bodyOffsetH : Nat
  htmlClientH : Nat
  htmlScrollH : Nat
  htmlOffsetH : Nat
  screenshot : List Nat

/-- Message thrown when the dynamic puppeteer import fails. -/
def puppeteerMissingMsg : String :=
  "需要安装 puppeteer 才能渲染图片。请运行: npm install puppeteer"

/-- Message thrown when `files` has no usable `index.html` text entry. -/
def noIndexMsg : String := "未找到 index.html 文件，HTML 转换可能失败"

/-- Measured width of a render environment, as computed by the
`page.evaluate` callback. -/
def envWidth (env : RenderEnv) : Nat :=
  measuredWidth env.bodyScrollW env.bodyOffsetW env.htmlClientW
    env.htmlScrollW env.htmlOffsetW

/-- Measured height of a render environment. -/
def envHeight (env : RenderEnv) : Nat :=
  measuredWidth env.bodyScrollH env.bodyOffsetH env.htmlClientH
    env.htmlScrollH env.htmlOffsetH

/-- `_renderHTMLToImage(files, options)`: import puppeteer, fetch
`index.html` (failing on absence, byte content, or — by JS truthiness — the
empty string), launch the browser, configure the viewport, inline resources
and load the page, wait, measure, screenshot, and report dimensions scaled
by the device-scale factor (`mkRat (w * dsf.num) dsf.den` is the rational
`w * dsf`, written via `mkRat` so it evaluates in the kernel; see
`mkRat_mul_nat`); the browser is closed on every exit path after
launch.  Failures are thrown errors, here `Except.error` with the message;
the trace records the per-call effects in order. -/
def _renderHTMLToImage (files : FileSet) (options : ImageConversionOptions)
    (env : RenderEnv) : Except String (List Nat × Int × Int) × List REv :=
  if env.puppeteerOk = false then (Except.error puppeteerMissingMsg, [REv.importP])
  else
    match lookupFS files "index.html" with
    | some (FileContent.text s) =>
      if s = "" then (Except.error noIndexMsg, [REv.importP])
      else
        match env.pageError with
        | some m => (Except.error m, [REv.importP, REv.launch, REv.newPage, REv.closeB])
        | none =>
          let dsf := options.scale.getD 1
          let htmlContent := _inlineResources s files
          let w := jsRound (mkRat ((envWidth env : Int) * dsf.num) dsf.den)
          let h := jsRound (mkRat ((envHeight env : Int) * dsf.num) dsf.den)
          (Except.ok (env.screenshot, w, h),
           [REv.importP, REv.launch, REv.newPage, REv.setViewport,
            REv.setContent htmlContent]
             ++ (if options.waitTime.getD 1000 > 0 then [REv.waitDelay] else [])
             ++ [REv.evalDims, REv.takeShot, REv.closeB])
    | _ => (Except.error noIndexMsg, [REv.importP])

/-- The five progress statuses of `ImageProgressInfo`. -/
inductive PStatus
  | convertingHtml
  | rendering
  | capturing
  | completed
  | failed
deriving DecidableEq

/-- Events of one `convert` call: `reportProgress` invocations (status,
percent, step), the HTML-generator call, the render call, the file write. -/
inductive CEv
  | progress (st : PStatus) (percent : Nat) (step : String)
  | callHtml
  | renderCall
  | writeCall
deriving DecidableEq

/-- The `error` object of a failed `ImageConversionResult`; `cause` holds the
message of the wrapped `Error` when one exists. -/
structure ErrInfo where
  code : String
  message : String
  cause : Option String := none
deriving DecidableEq

/-- `ImageConversionResult` (`src/types.ts`). -/
structure ImageConversionResult where
  success : Bool
  taskId : String
  outputPath : Option String := none
  data : Option (List Nat) := none
  format : Option String := none
  width : Option Int := none
  height : Option Int := none
  error : Option ErrInfo := none
  duration : Option Nat := none
deriving DecidableEq

/-- Environment of one `convert` call: the generated task id, the HTML
collaborator's outcome (`success` flag, `data.files`, `error`), the render
environment, the file-write outcome, and the elapsed wall-clock time
reported as `duration`. -/
structure ConvertEnv where
  taskId : String
  htmlSuccess : Bool
  htmlFiles : Option FileSet
  htmlError : Option ErrInfo
  renderEnv : RenderEnv
  writeResult : Except String Unit
  elapsed : Nat

/-- JS truthiness of an optional string (`undefined` and `''` are falsy). -/
def truthyS : Option String → Bool
  | some s => s != ""
  | none => false

/-- `_createErrorResult`. -/
def _createErrorResult (taskId code message : String) (elapsed : Nat)
    (cause : Option String) : ImageConversionResult :=
  { success := false, taskId := taskId,
    error := some { code := code, message := message, cause := cause },
    duration := some elapsed }

/-- The fallback `error` of the HTML-conversion failure branch. -/
def htmlFallbackErr : ErrInfo :=
  { code := "CONV-HTML-002", message := "HTML 转换失败，未能获取有效数据" }

/-- `convert(source, options)`: merge and validate options (failing
immediately with `INVALID_FORMAT`), call the HTML generator, render, then
either write to `outputPath` or return the bytes, reporting progress at the
fixed checkpoints; every thrown error is caught and wrapped with
`SCREENSHOT_FAILED`.  Returns the result together with the event trace. -/
def convert (options : ImageConversionOptions) (env : ConvertEnv) :
    ImageConversionResult × List CEv :=
  let mergedOptions := _mergeOptions options
  let validation := validateOptions mergedOptions
  if validation.valid = false then
    (_createErrorResult env.taskId "CONV-IMG-006"
      (match validation.errors with
       | some es => String.intercalate "; " es
       | none => "选项验证失败") env.elapsed none, [])
  else
    match env.htmlSuccess, env.htmlFiles with
    | true, some files =>
      match (_renderHTMLToImage files mergedOptions env.renderEnv).1 with
      | Except.error msg =>
        (_createErrorResult env.taskId "CONV-IMG-004" msg env.elapsed (some msg),
         [CEv.progress PStatus.convertingHtml 0 "正在解析卡片并生成 HTML", CEv.callHtml,
          CEv.progress PStatus.rendering 30 "HTML 生成完成，正在启动浏览器",
          CEv.progress PStatus.rendering 40 "正在渲染页面", CEv.renderCall,
          CEv.progress PStatus.failed 0 "转换过程发生错误"])
      | Except.ok (imageData, w, h) =>
        if truthyS mergedOptions.outputPath then
          match env.writeResult with
          | Except.error msg =>
            (_createErrorResult env.taskId "CONV-IMG-004" msg env.elapsed (some msg),
             [CEv.progress PStatus.convertingHtml 0 "正在解析卡片并生成 HTML", CEv.callHtml,
              CEv.progress PStatus.rendering 30 "HTML 生成完成，正在启动浏览器",
              CEv.progress PStatus.rendering 40 "正在渲染页面", CEv.renderCall,
              CEv.progress PStatus.capturing 80 "正在生成图片", CEv.writeCall,
              CEv.progress PStatus.failed 0 "转换过程发生错误"])
          | Except.ok _ =>
            ({ success := true, taskId := env.taskId,
               outputPath := mergedOptions.outputPath,
               data := if truthyS mergedOptions.outputPath then none else some imageData,
               format := mergedOptions.format, width := some w, height := some h,
               duration := some env.elapsed },
             [CEv.progress PStatus.convertingHtml 0 "正在解析卡片并生成 HTML", CEv.callHtml,
              CEv.progress PStatus.rendering 30 "HTML 生成完成，正在启动浏览器",
              CEv.progress PStatus.rendering 40 "正在渲染页面", CEv.renderCall,
              CEv.progress PStatus.capturing 80 "正在生成图片", CEv.writeCall,
              CEv.progress PStatus.completed 100 "图片已保存到文件"])
        else
          ({ success := true, taskId := env.taskId,
             outputPath := mergedOptions.outputPath,
             data := if truthyS mergedOptions.outputPath then none else some imageData,
             format := mergedOptions.format, width := some w, height := some h,
             duration := some env.elapsed },
           [CEv.progress PStatus.convertingHtml 0 "正在解析卡片并生成 HTML", CEv.callHtml,
            CEv.progress PStatus.rendering 30 "HTML 生成完成，正在启动浏览器",
            CEv.progress PStatus.rendering 40 "正在渲染页面", CEv.renderCall,
            CEv.progress PStatus.capturing 80 "正在生成图片",
            CEv.progress PStatus.completed 100 "转换完成"])
    | _, _ =>
      (({ success := false, taskId := env.taskId,
          error := some (env.htmlError.getD htmlFallbackErr),
          duration := some env.elapsed } : ImageConversionResult),
       [CEv.progress PStatus.convertingHtml 0 "正在解析卡片并生成 HTML", CEv.callHtml,
        CEv.progress PStatus.failed 0 "HTML 转换失败"])

/-- The `(status, percent)` pairs of the progress events in a trace. -/
def progressEvents : List CEv → List (PStatus × Nat)
  | [] => []
  | CEv.progress st p _ :: tl => (st, p) :: progressEvents tl
  | _ :: tl => progressEvents tl

/-- The progress events actually delivered to the observer: all of them when
an `onProgress` callback was supplied, none otherwise (`reportProgress`
checks `mergedOptions.onProgress` before invoking it). -/
def deliveredEvents (options : ImageConversionOptions) (env : ConvertEnv) :
    List (PStatus × Nat) :=
  if (_mergeOptions options).hasOnProgress then progressEvents (convert options env).2
  else []

/-- Whether the file set has a text entry named `index.html` (the render
precondition; JS truthiness makes the empty string unusable as well, but it
still counts as a text entry here). -/
def hasIndexText (files : FileSet) : Bool :=
  match lookupFS files "index.html" with
  | some (FileContent.text _) => true
  | _ => false

/-- A concrete stylesheet link tag referencing `theme.css`. -/
def linkTagStr : String := "<link href=\"theme.css\">"

/-- `themeAssemble tag s0 [s1, …, sn]` is `s0 ++ tag ++ s1 ++ tag ++ … ++ sn`:
an HTML text with `n` occurrences of `tag` separated by the given segments. -/
def themeAssemble (tag : String) : String → List String → String
  | s0, [] => s0
  | s0, s :: ss => s0 ++ tag ++ themeAssemble tag s ss

/-- List-of-characters version of `themeAssemble`. -/
def asmChars (tag : List Char) : List Char → List (List Char) → List Char
  | s0, [] => s0
  | s0, s :: ss => s0 ++ tag ++ asmChars tag s ss

/-- Does `stripCI` fail by a character mismatch (rather than by running out
of input)?  `true` also covers success.  A hard failure is stable under
appending further input. -/
def stripHard : List Char → List Char → Bool
  | [], _ => true
  | _ :: _, [] => false
  | p :: ps, c :: cs => if charEqCI p c then stripHard ps cs else true

/-- Append-stability of a `matchGo` run: no explored branch inspects the end
of the input, so appending a suffix neither changes a failure nor the parse
of a success (only the reported remainder grows).  Stars additionally demand
a stopping character, pinning the candidate set. -/
def stable : Nat → List RItem → List Char → Bool
  | _, [], _ => true
  | 0, _ :: _, _ => false
  | n + 1, RItem.lit l :: rest, cs =>
    match stripCI l cs with
    | some cs2 => stable n rest cs2
    | none => stripHard l cs
  | _ + 1, RItem.cls _ :: _, [] => false
  | n + 1, RItem.cls p :: rest, c :: cs =>
    if p c then stable n rest cs else true
  | n + 1, RItem.starCls p :: rest, cs =>
    cs.any (fun c => !p c) && (starSuffixes p cs).all (stable n rest)
  | n + 1, RItem.grpAlt2 a b :: rest, cs =>
    (match stripCI a cs with
     | some cs2 => stable n rest cs2
     | none => stripHard a cs) &&
    (match stripCI b cs with
     | some cs2 => stable n rest cs2
     | none => stripHard b cs)

/-- A concrete render environment for witnesses: puppeteer availability,
body scroll extents (the other extents zero), and screenshot bytes. -/
def mkRenderEnv (ok : Bool) (w h : Nat) (shot : List Nat) : RenderEnv :=
  { puppeteerOk := ok, pageError := none,
    bodyScrollW := w, bodyOffsetW := 0, htmlClientW := 0, htmlScrollW := 0,
    htmlOffsetW := 0,
    bodyScrollH := h, bodyOffsetH := 0, htmlClientH := 0, htmlScrollH := 0,
    htmlOffsetH := 0,
    screenshot := shot }

/-- A concrete convert environment for witnesses. -/
def mkConvertEnv (hs : Bool) (files : Option FileSet) (renv : RenderEnv)
    (wr : Except String Unit) : ConvertEnv :=
  { taskId := "t", htmlSuccess := hs, htmlFiles := files, htmlError := none,
    renderEnv := renv, writeResult := wr, elapsed := 7 }

/-- The event trace of a `convert` call whose HTML stage fails. -/
def trHtmlFail : List CEv :=
  [CEv.progress PStatus.convertingHtml 0 "正在解析卡片并生成 HTML", CEv.callHtml,
   CEv.progress PStatus.failed 0 "HTML 转换失败"]

/-- The event trace of a `convert` call whose render stage throws. -/
def trRenderFail : List CEv :=
  [CEv.progress PStatus.convertingHtml 0 "正在解析卡片并生成 HTML", CEv.callHtml,
   CEv.progress PStatus.rendering 30 "HTML 生成完成，正在启动浏览器",
   CEv.progress PStatus.rendering 40 "正在渲染页面", CEv.renderCall,
   CEv.progress PStatus.failed 0 "转换过程发生错误"]

/-- The event trace of a `convert` call whose file write throws. -/
def trWriteFail : List CEv :=
  [CEv.progress PStatus.convertingHtml 0 "正在解析卡片并生成 HTML", CEv.callHtml,
   CEv.progress PStatus.rendering 30 "HTML 生成完成，正在启动浏览器",
   CEv.progress PStatus.rendering 40 "正在渲染页面", CEv.renderCall,
   CEv.progress PStatus.capturing 80 "正在生成图片", CEv.writeCall,
   CEv.progress PStatus.failed 0 "转换过程发生错误"]

/-- The event trace of a successful `convert` call that wrote a file. -/
def trOkPath : List CEv :=
  [CEv.progress PStatus.convertingHtml 0 "正在解析卡片并生成 HTML", CEv.callHtml,
   CEv.progress PStatus.rendering 30 "HTML 生成完成，正在启动浏览器",
   CEv.progress PStatus.rendering 40 "正在渲染页面", CEv.renderCall,
   CEv.progress PStatus.capturing 80 "正在生成图片", CEv.writeCall,
   CEv.progress PStatus.completed 100 "图片已保存到文件"]

/-- The event trace of a successful `convert` call returning the bytes. -/
def trOkData : List CEv :=
  [CEv.progress PStatus.convertingHtml 0 "正在解析卡片并生成 HTML", CEv.callHtml,
   CEv.progress PStatus.rendering 30 "HTML 生成完成，正在启动浏览器",
   CEv.progress PStatus.rendering 40 "正在渲染页面", CEv.renderCall,
   CEv.progress PStatus.capturing 80 "正在生成图片",
   CEv.progress PStatus.completed 100 "转换完成"]

/-- Monotone non-decrease of a percent sequence, as a computable check. -/
def nondecreasing : List Nat → Bool
  | [] => true
  | [_] => true
  | a :: b :: tl => decide (a ≤ b) && nondecreasing (b :: tl)

theorem stripCI_append (l : List Char) : ∀ (cs rem rest : List Char),
    stripCI l cs = some rem → stripCI l (cs ++ rest) = some (rem ++ rest) := by
  induction l with
  | nil => intro cs rem rest h; simp [stripCI] at h ⊢; simp [h]
  | cons p ps ih =>
    intro cs rem rest h
    cases cs with
    | nil => simp [stripCI] at h
    | cons c cs2 =>
      by_cases hc : charEqCI p c = true
      · simp [stripCI, hc] at h ⊢
        exact ih cs2 rem rest h
      · simp [stripCI, hc] at h

theorem stripCI_none_of_hard (l : List Char) : ∀ (cs rest : List Char),
    stripHard l cs = true → stripCI l cs = none → stripCI l (cs ++ rest) = none := by
  induction l with
  | nil => intro cs rest _ h; simp [stripCI] at h
  | cons p ps ih =>
    intro cs rest hh h
    cases cs with
    | nil => simp [stripHard] at hh
    | cons c cs2 =>
      by_cases hc : charEqCI p c = true
      · simp [stripCI, stripHard, hc] at h hh ⊢
        exact ih cs2 rest hh h
      · simp [stripCI, hc]

theorem stripCI_length (l : List Char) : ∀ (cs rem : List Char),
    stripCI l cs = some rem → cs.length = l.length + rem.length := by
  induction l with
  | nil => intro cs rem h; simp [stripCI] at h; simp [h]
  | cons p ps ih =>
    intro cs rem h
    cases cs with
    | nil => simp [stripCI] at h
    | cons c cs2 =>
      by_cases hc : charEqCI p c = true
      · simp [stripCI, hc] at h
        have := ih cs2 rem h
        simp [List.length_cons, this]
        omega
      · simp [stripCI, hc] at h

theorem starSuffixes_append (p : Char → Bool) (rest : List Char) :
    ∀ cs : List Char, cs.any (fun c => !p c) = true →
      starSuffixes p (cs ++ rest) = (starSuffixes p cs).map (fun c => c ++ rest) := by
  intro cs
  induction cs with
  | nil => intro h; simp at h
  | cons c cs2 ih =>
    intro h
    by_cases hp : p c = true
    · have h2 : cs2.any (fun c => !p c) = true := by
        simp [List.any_cons, hp] at h
        simp [List.any_eq_true]
        exact h
      simp [starSuffixes, hp, ih h2, List.map_append]
    · simp at hp
      simp [starSuffixes, hp]

theorem firstSome_map (F : List Char → Option (List Char × List (List Char)))
    (rest : List Char) :
    ∀ cands : List (List Char),
      (∀ c ∈ cands, F (c ++ rest) = Option.map (fun rc => (rc.1 ++ rest, rc.2)) (F c)) →
      firstSome F (cands.map (fun c => c ++ rest))
        = Option.map (fun rc => (rc.1 ++ rest, rc.2)) (firstSome F cands) := by
  intro cands
  induction cands with
  | nil => intro _; simp [firstSome]
  | cons c cands2 ih =>
    intro h
    have hc := h c (by simp)
    cases hF : F c with
    | some r => simp [firstSome, hF, hc]
    | none =>
      have hrest : ∀ x ∈ cands2, F (x ++ rest)
          = Option.map (fun rc => (rc.1 ++ rest, rc.2)) (F x) :=
        fun x hx => h x (by simp [hx])
      simp [firstSome, hF, hc, ih hrest]

theorem matchGo_append (rest : List Char) :
    ∀ (n : Nat) (items : List RItem) (cs : List Char), stable n items cs = true →
      matchGo n items (cs ++ rest)
        = Option.map (fun rc => (rc.1 ++ rest, rc.2)) (matchGo n items cs) := by
  intro n
  induction n with
  | zero =>
    intro items cs h
    cases items with
    | nil => simp [matchGo]
    | cons i it => simp [stable] at h
  | succ n ih =>
    intro items cs h
    cases items with
    | nil => simp [matchGo]
    | cons item restI =>
      cases item with
      | lit l =>
        cases hs : stripCI l cs with
        | some cs2 =>
          simp only [stable, hs] at h
          have hst := stripCI_append l cs cs2 rest hs
          simp only [matchGo, hs, hst]
          exact ih restI cs2 h
        | none =>
          simp only [stable, hs] at h
          have hn := stripCI_none_of_hard l cs rest h hs
          simp only [matchGo, hs, hn]
          rfl
      | cls p =>
        cases cs with
        | nil => simp [stable] at h
        | cons c cs2 =>
          simp only [stable] at h
          by_cases hp : p c = true
          · simp only [hp, if_true] at h
            simp only [List.cons_append, matchGo, hp, if_true]
            exact ih restI cs2 h
          · simp at hp
            simp [List.cons_append, matchGo, hp]
      | starCls p =>
        simp only [stable] at h
        have h2 := (Bool.and_eq_true _ _).mp h
        simp only [matchGo]
        rw [starSuffixes_append p rest cs h2.1]
        refine firstSome_map (matchGo n restI) rest (starSuffixes p cs) ?_
        intro c hc
        exact ih restI c ((List.all_eq_true).mp h2.2 c hc)
      | grpAlt2 a b =>
        simp only [stable] at h
        have h2 := (Bool.and_eq_true _ _).mp h
        obtain ⟨ha, hb⟩ := h2
        cases hsa : stripCI a cs with
        | some cs2 =>
          simp only [hsa] at ha
          have hsta := stripCI_append a cs cs2 rest hsa
          have htake : (cs ++ rest).take a.length = cs.take a.length :=
            List.take_append_of_le_length (by
              have := stripCI_length a cs cs2 hsa; omega)
          cases hma : matchGo n restI cs2 with
          | some r =>
            have hia : matchGo n restI (cs2 ++ rest) = some (r.1 ++ rest, r.2) := by
              rw [ih restI cs2 ha, hma]; rfl
            simp only [matchGo, hsa, hsta, hma, hia, htake, Option.map_some]
            rfl
          | none =>
            have hia : matchGo n restI (cs2 ++ rest) = none := by
              rw [ih restI cs2 ha, hma]; rfl
            cases hsb : stripCI b cs with
            | some cs3 =>
              simp only [hsb] at hb
              have hstb := stripCI_append b cs cs3 rest hsb
              have htakeb : (cs ++ rest).take b.length = cs.take b.length :=
                List.take_append_of_le_length (by
                  have := stripCI_length b cs cs3 hsb; omega)
              cases hmb : matchGo n restI cs3 with
              | some r2 =>
                have hib : matchGo n restI (cs3 ++ rest) = some (r2.1 ++ rest, r2.2) := by
                  rw [ih restI cs3 hb, hmb]; rfl
                simp only [matchGo, hsa, hsta, hma, hia, hsb, hstb, hmb, hib,
                  htakeb, Option.map_some]
                rfl
              | none =>
                have hib : matchGo n restI (cs3 ++ rest) = none := by
                  rw [ih restI cs3 hb, hmb]; rfl
                simp only [matchGo, hsa, hsta, hma, hia, hsb, hstb, hmb, hib,
                  Option.map_none]
                rfl
            | none =>
              simp only [hsb] at hb
              have hnb := stripCI_none_of_hard b cs rest hb hsb
              simp only [matchGo, hsa, hsta, hma, hia, hsb, hnb, Option.map_none]
              rfl
        | none =>
          simp only [hsa] at ha
          have hna := stripCI_none_of_hard a cs rest ha hsa
          cases hsb : stripCI b cs with
          | some cs3 =>
            simp only [hsb] at hb
            have hstb := stripCI_append b cs cs3 rest hsb
            have htakeb : (cs ++ rest).take b.length = cs.take b.length :=
              List.take_append_of_le_length (by
                have := stripCI_length b cs cs3 hsb; omega)
            cases hmb : matchGo n restI cs3 with
            | some r2 =>
              have hib : matchGo n restI (cs3 ++ rest) = some (r2.1 ++ rest, r2.2) := by
                rw [ih restI cs3 hb, hmb]; rfl
              simp only [matchGo, hsa, hna, hsb, hstb, hmb, hib, htakeb,
                Option.map_some]
              rfl
            | none =>
              have hib : matchGo n restI (cs3 ++ rest) = none := by
                rw [ih restI cs3 hb, hmb]; rfl
              simp only [matchGo, hsa, hna, hsb, hstb, hmb, hib, Option.map_none]
              rfl
          | none =>
            simp only [hsb] at hb
            have hnb := stripCI_none_of_hard b cs rest hb hsb
            simp only [matchGo, hsa, hna, hsb, hnb, Option.map_none]
            rfl


theorem charEqCI_lt {c : Char} (h : charEqCI '<' c = true) : c = '<' := by
  have h60 : Char.toNat '<' = 60 := rfl
  simp only [charEqCI, upperA, Bool.or_eq_true, Bool.and_eq_true,
    decide_eq_true_eq] at h
  rcases h with (h | h) | h
  · exact h.symm
  · rw [h60] at h
    omega
  · rcases h with ⟨⟨h1, h2⟩, h3⟩
    rw [h60] at h3
    omega

theorem charEqCI_lt_false {c : Char} (h : c ≠ '<') : charEqCI '<' c = false := by
  cases hcc : charEqCI '<' c with
  | false => rfl
  | true => exact absurd (charEqCI_lt hcc) h

theorem matchGo_lit_head_none (n : Nat) (p : Char) (l : List Char)
    (restI : List RItem) (c : Char) (cs : List Char) (h : charEqCI p c = false) :
    matchGo n (RItem.lit (p :: l) :: restI) (c :: cs) = none := by
  cases n with
  | zero => rfl
  | succ n => simp [matchGo, stripCI, h]

theorem matchItems_linkRe_head (fn : String) (c : Char) (cs : List Char)
    (h : c ≠ '<') : matchItems (linkRe fn) (c :: cs) = none := by
  have hre : linkRe fn = RItem.lit ('<' :: "link".data)
      :: [RItem.starCls notGt, RItem.lit "href=".data, RItem.cls isQuoteC,
          RItem.starCls notQuote, RItem.lit fn.data, RItem.cls isQuoteC,
          RItem.starCls notGt, RItem.lit ">".data] := rfl
  rw [matchItems, hre]
  exact matchGo_lit_head_none _ _ _ _ _ _ (charEqCI_lt_false h)

theorem findM_linkRe_none (fn : String) : ∀ s : List Char,
    (∀ c ∈ s, c ≠ '<') → findM (linkRe fn) s = none := by
  intro s
  induction s with
  | nil => intro _; rfl
  | cons c cs ih =>
    intro h
    have hhead := matchItems_linkRe_head fn c cs (h c (by simp))
    have htail := ih (fun x hx => h x (by simp [hx]))
    simp only [findM, hhead, htail]

theorem findM_linkRe_shift (fn : String) : ∀ (pre s : List Char),
    (∀ c ∈ pre, c ≠ '<') →
    findM (linkRe fn) (pre ++ s)
      = (findM (linkRe fn) s).map (fun r => (pre.length + r.1, r.2)) := by
  intro pre
  induction pre with
  | nil =>
    intro s _
    simp only [List.nil_append, List.length_nil]
    cases hf : findM (linkRe fn) s with
    | none => rfl
    | some r => simp
  | cons c pre2 ih =>
    intro s h
    have hhead := matchItems_linkRe_head fn c (pre2 ++ s) (h c (by simp))
    have htail := ih s (fun x hx => h x (by simp [hx]))
    simp only [List.cons_append, findM, List.append_eq, hhead, htail]
    cases hf : findM (linkRe fn) s with
    | none => rfl
    | some r =>
      obtain ⟨i, len, caps⟩ := r
      simp only [Option.map_some, List.length_cons]
      refine congrArg some ?_
      refine congrArg (fun x => (x, len, caps)) ?_
      omega

theorem matchItems_linkTag :
    matchItems (linkRe "theme.css") linkTagStr.data = some ([], []) := by decide

theorem stable_linkTag :
    stable (linkRe "theme.css").length (linkRe "theme.css") linkTagStr.data = true := by
  decide

theorem matchItems_linkTag_append (rest : List Char) :
    matchItems (linkRe "theme.css") (linkTagStr.data ++ rest) = some (rest, []) := by
  show matchGo (linkRe "theme.css").length (linkRe "theme.css")
      (linkTagStr.data ++ rest) = some (rest, [])
  rw [matchGo_append rest (linkRe "theme.css").length (linkRe "theme.css")
    linkTagStr.data stable_linkTag]
  rw [show matchGo (linkRe "theme.css").length (linkRe "theme.css") linkTagStr.data
      = some ([], []) from matchItems_linkTag]
  rfl

theorem findM_linkTag_append (rest : List Char) :
    findM (linkRe "theme.css") (linkTagStr.data ++ rest) = some (0, 23, []) := by
  have hfull : linkTagStr.data ++ rest
      = '<' :: ("link href=\"theme.css\">".data ++ rest) := rfl
  have hm := matchItems_linkTag_append rest
  rw [hfull] at hm
  rw [hfull]
  simp only [findM, hm]
  have hT : ("link href=\"theme.css\">".data).length = 22 := by decide
  have hlen : ('<' :: ("link href=\"theme.css\">".data ++ rest)).length
      - rest.length = 23 := by
    simp only [List.length_cons, List.length_append, hT]
    omega
  rw [hlen]

theorem jsRound_eq (q : ℚ) : jsRound q = ⌊q + 1/2⌋ := by
  rw [jsRound]
  have hq : (q : ℚ) = (q.num : ℚ) / (q.den : ℚ) := (Rat.num_div_den q).symm
  have hnum : (q.num : ℚ) = q * (q.den : ℚ) := by
    nth_rewrite 2 [hq]
    field_simp
  have h2 : q + 1/2 = ((2 * q.num + q.den : ℤ) : ℚ) / ((2 * q.den : ℕ) : ℚ) := by
    push_cast
    rw [eq_div_iff (by positivity : ((2:ℚ) * (q.den:ℚ)) ≠ 0)]
    rw [hnum]
    ring
  rw [h2, Rat.floor_intCast_div_natCast]
  push_cast
  rfl

theorem mkRat_mul_nat (n : ℕ) (q : ℚ) :
    mkRat ((n : Int) * q.num) q.den = (n : ℚ) * q := by
  rw [Rat.mkRat_eq_div]
  push_cast
  rw [mul_div_assoc, Rat.num_div_den]

theorem jsRound_abs (q : ℚ) : |(jsRound q : ℚ) - q| ≤ 1/2 := by
  rw [jsRound_eq, abs_le]
  constructor
  · have := Int.sub_one_lt_floor (q + 1/2)
    linarith
  · have := Int.floor_le (q + 1/2)
    linarith

theorem jsRound_natCast (n : ℕ) : jsRound (n : ℚ) = n := by
  rw [jsRound_eq, Int.floor_eq_iff]
  constructor
  · push_cast; linarith
  · push_cast; linarith

theorem findM_nil_len (pat : List RItem) (i len : Nat) (caps : List (List Char))
    (h : findM pat [] = some (i, len, caps)) : len = 0 := by
  cases hm : matchItems pat [] with
  | some r =>
    obtain ⟨rem, caps2⟩ := r
    simp only [findM, hm, Option.some.injEq, Prod.mk.injEq] at h
    obtain ⟨h1, h2, h3⟩ := h
    omega
  | none =>
    simp only [findM, hm] at h
    exact Option.noConfusion h

theorem replaceGo_nomatch (pat : List RItem) (rep : List Char) (s : List Char)
    (h : findM pat s = none) :
    ∀ (fuel : Nat) (b : List Char), replaceGo pat rep fuel b s = s := by
  intro fuel b
  cases fuel with
  | zero => rfl
  | succ f => simp [replaceGo, h]

theorem expandRep_no_dollar (rep : List Char) (h : '$' ∉ rep) :
    ∀ (m b a : List Char) (caps : List (List Char)),
      expandRep rep m b a caps = rep := by
  induction rep with
  | nil => intro m b a caps; rfl
  | cons c tl ih =>
    intro m b a caps
    have hc : c ≠ '$' := fun hc => h (hc ▸ List.mem_cons_self c tl)
    have htl : '$' ∉ tl := fun hm => h (List.mem_cons_of_mem c hm)
    rw [expandRep.eq_def]
    simp only [hc, if_false, ite_false]
    rw [ih htl]

theorem replaceGo_nil (pat : List RItem) (rep : List Char) :
    ∀ (fuel : Nat) (b : List Char), replaceGo pat rep fuel b [] = [] := by
  intro fuel b
  cases fuel with
  | zero => rfl
  | succ f =>
    cases hm : findM pat [] with
    | none => simp [replaceGo, hm]
    | some r =>
      obtain ⟨i, len, caps⟩ := r
      have hl := findM_nil_len pat i len caps hm
      simp [replaceGo, hm, hl]

theorem replaceGo_congr (pat : List RItem) (rep : List Char) (hrep : '$' ∉ rep) :
    ∀ (N : Nat) (s : List Char), s.length ≤ N →
      ∀ (fuel fuel2 : Nat) (b b2 : List Char), s.length ≤ fuel → s.length ≤ fuel2 →
        replaceGo pat rep fuel b s = replaceGo pat rep fuel2 b2 s := by
  intro N
  induction N with
  | zero =>
    intro s hs fuel fuel2 b b2 _ _
    have : s = [] := List.length_eq_zero.mp (Nat.le_zero.mp hs)
    rw [this, replaceGo_nil, replaceGo_nil]
  | succ N ih =>
    intro s hs fuel fuel2 b b2 hf hf2
    cases s with
    | nil => rw [replaceGo_nil, replaceGo_nil]
    | cons c cs =>
      have hpos : 0 < (c :: cs).length := by simp
      obtain ⟨f, rfl⟩ : ∃ f, fuel = f + 1 := by
        cases fuel with
        | zero => omega
        | succ f => exact ⟨f, rfl⟩
      obtain ⟨f2, rfl⟩ : ∃ f2, fuel2 = f2 + 1 := by
        cases fuel2 with
        | zero => omega
        | succ f2 => exact ⟨f2, rfl⟩
      cases hm : findM pat (c :: cs) with
      | none => simp [replaceGo, hm]
      | some r =>
        obtain ⟨i, len, caps⟩ := r
        by_cases hlen : len = 0
        · simp [replaceGo, hm, hlen]
        · simp only [replaceGo, hm, if_neg hlen]
          rw [expandRep_no_dollar rep hrep, expandRep_no_dollar rep hrep]
          have hdl : ((c :: cs).drop (i + len)).length = cs.length + 1 - (i + len) := by
            rw [List.length_drop]
            simp [List.length_cons]
          simp only [List.length_cons] at hs hf hf2
          have hdrop : ((c :: cs).drop (i + len)).length ≤ N := by omega
          rw [ih _ hdrop f f2 _ _ (by omega) (by omega)]

theorem stringMk_data (s : String) : String.mk s.data = s := by
  cases s
  rfl

theorem replaceAllJS_nomatch (pat : List RItem) (rep : String) (s : String)
    (h : findM pat s.data = none) : replaceAllJS pat rep s = s := by
  rw [replaceAllJS, replaceGo_nomatch pat rep.data s.data h, stringMk_data]

theorem replaceGo_theme (rep : List Char) (hrep : '$' ∉ rep) :
    ∀ (segs : List (List Char)) (s0 : List Char), (∀ c ∈ s0, c ≠ '<') →
      (∀ t ∈ segs, ∀ c ∈ t, c ≠ '<') →
      ∀ (fuel : Nat) (b : List Char),
        (asmChars linkTagStr.data s0 segs).length ≤ fuel →
        replaceGo (linkRe "theme.css") rep fuel b (asmChars linkTagStr.data s0 segs)
          = asmChars rep s0 segs := by
  intro segs
  induction segs with
  | nil =>
    intro s0 h0 _ fuel b _
    rw [asmChars, asmChars]
    exact replaceGo_nomatch _ _ _ (findM_linkRe_none "theme.css" s0 h0) fuel b
  | cons t ts ih =>
    intro s0 h0 hts fuel b hfuel
    have hasm : asmChars linkTagStr.data s0 (t :: ts)
        = s0 ++ (linkTagStr.data ++ asmChars linkTagStr.data t ts) := by
      rw [asmChars, List.append_assoc]
    have hL : linkTagStr.data.length = 23 := by decide
    rw [hasm] at hfuel ⊢
    have hlen : (s0 ++ (linkTagStr.data ++ asmChars linkTagStr.data t ts)).length
        = s0.length + (23 + (asmChars linkTagStr.data t ts).length) := by
      rw [List.length_append, List.length_append, hL]
    cases fuel with
    | zero =>
      exfalso
      rw [hlen] at hfuel
      omega
    | succ f =>
      have hfind : findM (linkRe "theme.css")
          (s0 ++ (linkTagStr.data ++ asmChars linkTagStr.data t ts))
          = some (s0.length, 23, []) := by
        rw [findM_linkRe_shift "theme.css" s0 _ h0,
          findM_linkTag_append (asmChars linkTagStr.data t ts)]
        simp
      simp only [replaceGo, hfind]
      rw [if_neg (by omega : ¬(23 = 0))]
      rw [List.take_left s0 (linkTagStr.data ++ asmChars linkTagStr.data t ts)]
      rw [List.drop_left s0 (linkTagStr.data ++ asmChars linkTagStr.data t ts)]
      have h23 : (linkTagStr.data ++ asmChars linkTagStr.data t ts).take 23
          = linkTagStr.data := by
        rw [show (23 : Nat) = linkTagStr.data.length from by decide]
        exact List.take_left _ _
      rw [h23]
      have hd2 : (s0 ++ (linkTagStr.data ++ asmChars linkTagStr.data t ts)).drop
          (s0.length + 23) = asmChars linkTagStr.data t ts := by
        rw [← List.append_assoc]
        rw [show s0.length + 23 = (s0 ++ linkTagStr.data).length from by
          rw [List.length_append, hL]]
        exact List.drop_left _ _
      rw [hd2]
      rw [expandRep_no_dollar rep hrep]
      rw [ih t (fun c hc => hts t (by simp) c hc)
        (fun x hx c hc => hts x (by simp [hx]) c hc) f _ (by
          rw [hlen] at hfuel
          omega)]
      rw [asmChars, List.append_assoc]

theorem themeAssemble_data (tag : String) : ∀ (segs : List String) (s0 : String),
    (themeAssemble tag s0 segs).data
      = asmChars tag.data s0.data (segs.map String.data) := by
  intro segs
  induction segs with
  | nil => intro s0; rw [themeAssemble, List.map_nil, asmChars]
  | cons s ss ih =>
    intro s0
    rw [themeAssemble, List.map_cons, asmChars]
    rw [String.data_append, String.data_append, ih s, List.append_assoc]

theorem styleTagOf_no_dollar (css : String) (h : '$' ∉ css.data) :
    '$' ∉ (styleTagOf css).data := by
  intro hmem
  rw [styleTagOf, String.data_append, String.data_append] at hmem
  rcases List.mem_append.mp hmem with h1 | h2
  · rcases List.mem_append.mp h1 with h3 | h4
    · exact absurd h3 (by decide)
    · exact h h4
  · exact absurd h2 (by decide)

theorem inlineResources_theme_only (css : String) (hne : css ≠ "") (html : String) :
    _inlineResources html [("theme.css", FileContent.text css)]
      = replaceAllJS (linkRe "theme.css") (styleTagOf css) html := by
  have hth : themePass html [("theme.css", FileContent.text css)]
      = if css = "" then html
        else replaceAllJS (linkRe "theme.css") (styleTagOf css) html := rfl
  have hcss : ∀ acc : String, cssPassStep acc ("theme.css", FileContent.text css) = acc :=
    fun acc => rfl
  have himg : ∀ acc : String, imgPassStep acc ("theme.css", FileContent.text css) = acc :=
    fun acc => rfl
  rw [_inlineResources, List.foldl_cons, List.foldl_nil, List.foldl_cons,
    List.foldl_nil, hcss, himg, hth, if_neg hne]

theorem cssFold_id (s : String) :
    ∀ l : List (String × FileContent),
      (∀ e ∈ l, ∀ content, e.2 = FileContent.text content →
        (endsWithS e.1 ".css" && !(e.1 == "theme.css")) = true →
        findM (linkRe (basename e.1)) s.data = none) →
      l.foldl cssPassStep s = s := by
  intro l
  induction l with
  | nil => intro _; rfl
  | cons e l ih =>
    intro h
    obtain ⟨p1, c⟩ := e
    rw [List.foldl_cons]
    have hstep : cssPassStep s (p1, c) = s := by
      cases c with
      | text content =>
        simp only [cssPassStep]
        by_cases hcond : (endsWithS p1 ".css" && !(p1 == "theme.css")) = true
        · rw [if_pos hcond]
          exact replaceAllJS_nomatch _ _ _ (h (p1, FileContent.text content)
            (by simp) content rfl hcond)
        · rw [if_neg hcond]
      | bytes bs => rfl
    rw [hstep]
    exact ih (fun e2 he2 content hc hcond => h e2 (by simp [he2]) content hc hcond)

theorem imgFold_id (s : String) :
    ∀ l : List (String × FileContent),
      (∀ e ∈ l, ∀ bs, e.2 = FileContent.bytes bs → _isImagePath e.1 = true →
        findM (imgRe (basename e.1)) s.data = none) →
      l.foldl imgPassStep s = s := by
  intro l
  induction l with
  | nil => intro _; rfl
  | cons e l ih =>
    intro h
    obtain ⟨p1, c⟩ := e
    rw [List.foldl_cons]
    have hstep : imgPassStep s (p1, c) = s := by
      cases c with
      | bytes bs =>
        simp only [imgPassStep]
        by_cases hcond : _isImagePath p1 = true
        · rw [if_pos hcond]
          exact replaceAllJS_nomatch _ _ _ (h (p1, FileContent.bytes bs)
            (by simp) bs rfl hcond)
        · rw [if_neg hcond]
      | text content => rfl
    rw [hstep]
    exact ih (fun e2 he2 bs hb hcond => h e2 (by simp [he2]) bs hb hcond)

theorem stripCI_sound : ∀ (l cs cs2 : List Char), stripCI l cs = some cs2 →
    ∃ pre, cs = pre ++ cs2 ∧ List.Forall₂ (fun a b => charEqCI a b = true) l pre := by
  intro l
  induction l with
  | nil =>
    intro cs cs2 h
    simp only [stripCI, Option.some.injEq] at h
    exact ⟨[], by simp [h], List.Forall₂.nil⟩
  | cons p ps ih =>
    intro cs cs2 h
    cases cs with
    | nil => simp [stripCI] at h
    | cons c cs3 =>
      by_cases hc : charEqCI p c = true
      · simp only [stripCI, if_pos hc] at h
        obtain ⟨pre, hpre, hf⟩ := ih cs3 cs2 h
        exact ⟨c :: pre, by simp [hpre], List.Forall₂.cons hc hf⟩
      · simp [stripCI, hc] at h

theorem starSuffixes_sound (p : Char → Bool) :
    ∀ (cs cs2 : List Char), cs2 ∈ starSuffixes p cs →
      ∃ pre, cs = pre ++ cs2 ∧ ∀ x ∈ pre, p x = true := by
  intro cs
  induction cs with
  | nil =>
    intro cs2 h
    simp only [starSuffixes, List.mem_singleton] at h
    exact ⟨[], by simp [h], by simp⟩
  | cons c cs3 ih =>
    intro cs2 h
    by_cases hp : p c = true
    · simp only [starSuffixes, if_pos hp, List.mem_append, List.mem_singleton] at h
      rcases h with h1 | h2
      · obtain ⟨pre, hpre, hall⟩ := ih cs2 h1
        refine ⟨c :: pre, by simp [hpre], ?_⟩
        intro x hx
        rcases List.mem_cons.mp hx with rfl | hx2
        · exact hp
        · exact hall x hx2
      · exact ⟨[], by simp [h2], by simp⟩
    · simp only [starSuffixes, if_neg hp, List.mem_singleton] at h
      exact ⟨[], by simp [h], by simp⟩

theorem firstSome_sound (f : List Char → Option (List Char × List (List Char))) :
    ∀ (l : List (List Char)) (r : List Char × List (List Char)),
      firstSome f l = some r → ∃ x ∈ l, f x = some r := by
  intro l
  induction l with
  | nil => intro r h; simp [firstSome] at h
  | cons c cs ih =>
    intro r h
    cases hf : f c with
    | some r2 =>
      simp only [firstSome, hf, Option.some.injEq] at h
      exact ⟨c, by simp, by rw [hf, h]⟩
    | none =>
      simp only [firstSome, hf] at h
      obtain ⟨x, hx, hfx⟩ := ih r h
      exact ⟨x, by simp [hx], hfx⟩

theorem matchGo_sound : ∀ (n : Nat) (items : List RItem) (cs rem : List Char)
    (caps : List (List Char)), matchGo n items cs = some (rem, caps) →
    Consumes items cs rem := by
  intro n
  induction n with
  | zero =>
    intro items cs rem caps h
    cases items with
    | nil =>
      simp only [matchGo, Option.some.injEq, Prod.mk.injEq] at h
      simp only [Consumes]
      exact h.1
    | cons it its =>
      simp only [matchGo] at h
      exact Option.noConfusion h
  | succ n ih =>
    intro items cs rem caps h
    cases items with
    | nil =>
      simp only [matchGo, Option.some.injEq, Prod.mk.injEq] at h
      simp only [Consumes]
      exact h.1
    | cons it its =>
      cases it with
      | lit l =>
        cases hs : stripCI l cs with
        | none =>
          simp only [matchGo, hs] at h
          exact Option.noConfusion h
        | some cs2 =>
          simp only [matchGo, hs] at h
          obtain ⟨pre, hpre, hf⟩ := stripCI_sound l cs cs2 hs
          simp only [Consumes]
          exact ⟨pre, cs2, hpre, hf, ih its cs2 rem caps h⟩
      | cls p =>
        cases cs with
        | nil =>
          simp only [matchGo] at h
          exact Option.noConfusion h
        | cons c cs2 =>
          by_cases hp : p c = true
          · simp only [matchGo, if_pos hp] at h
            simp only [Consumes]
            exact ⟨c, cs2, rfl, hp, ih its cs2 rem caps h⟩
          · simp only [matchGo, if_neg hp] at h
            exact Option.noConfusion h
      | starCls p =>
        simp only [matchGo] at h
        obtain ⟨x, hx, hfx⟩ :=
          firstSome_sound (matchGo n its) (starSuffixes p cs) (rem, caps) h
        obtain ⟨pre, hpre, hall⟩ := starSuffixes_sound p cs x hx
        simp only [Consumes]
        exact ⟨pre, x, hpre, hall, ih its x rem caps hfx⟩
      | grpAlt2 a b =>
        simp only [matchGo] at h
        cases hsa : stripCI a cs with
        | some cs2 =>
          simp only [hsa] at h
          cases hma : matchGo n its cs2 with
          | some rc =>
            obtain ⟨r2, caps2⟩ := rc
            simp only [hma, Option.some.injEq, Prod.mk.injEq] at h
            obtain ⟨pre, hpre, hf⟩ := stripCI_sound a cs cs2 hsa
            simp only [Consumes]
            exact ⟨pre, cs2, hpre, Or.inl hf, h.1 ▸ ih its cs2 r2 caps2 hma⟩
          | none =>
            simp only [hma] at h
            cases hsb : stripCI b cs with
            | some cs3 =>
              simp only [hsb] at h
              cases hmb : matchGo n its cs3 with
              | some rc =>
                obtain ⟨r2, caps2⟩ := rc
                simp only [hmb, Option.some.injEq, Prod.mk.injEq] at h
                obtain ⟨pre, hpre, hf⟩ := stripCI_sound b cs cs3 hsb
                simp only [Consumes]
                exact ⟨pre, cs3, hpre, Or.inr hf, h.1 ▸ ih its cs3 r2 caps2 hmb⟩
              | none =>
                simp only [hmb] at h
                exact Option.noConfusion h
            | none =>
              simp only [hsb] at h
              exact Option.noConfusion h
        | none =>
          simp only [hsa] at h
          cases hsb : stripCI b cs with
          | some cs3 =>
            simp only [hsb] at h
            cases hmb : matchGo n its cs3 with
            | some rc =>
              obtain ⟨r2, caps2⟩ := rc
              simp only [hmb, Option.some.injEq, Prod.mk.injEq] at h
              obtain ⟨pre, hpre, hf⟩ := stripCI_sound b cs cs3 hsb
              simp only [Consumes]
              exact ⟨pre, cs3, hpre, Or.inr hf, h.1 ▸ ih its cs3 r2 caps2 hmb⟩
            | none =>
              simp only [hmb] at h
              exact Option.noConfusion h
          | none =>
            simp only [hsb] at h
            exact Option.noConfusion h

theorem consumes_suffix : ∀ (items : List RItem) (cs rem : List Char),
    Consumes items cs rem → ∃ pre, cs = pre ++ rem := by
  intro items
  induction items with
  | nil =>
    intro cs rem h
    simp only [Consumes] at h
    exact ⟨[], by simp [h]⟩
  | cons it its ih =>
    intro cs rem h
    cases it with
    | lit l =>
      simp only [Consumes] at h
      obtain ⟨pre, cs2, rfl, hf, hc⟩ := h
      obtain ⟨pre2, rfl⟩ := ih cs2 rem hc
      exact ⟨pre ++ pre2, by simp⟩
    | cls p =>
      simp only [Consumes] at h
      obtain ⟨c, cs2, rfl, hp, hc⟩ := h
      obtain ⟨pre2, rfl⟩ := ih cs2 rem hc
      exact ⟨c :: pre2, by simp⟩
    | starCls p =>
      simp only [Consumes] at h
      obtain ⟨pre, cs2, rfl, hall, hc⟩ := h
      obtain ⟨pre2, rfl⟩ := ih cs2 rem hc
      exact ⟨pre ++ pre2, by simp⟩
    | grpAlt2 a b =>
      simp only [Consumes] at h
      obtain ⟨pre, cs2, rfl, hab, hc⟩ := h
      obtain ⟨pre2, rfl⟩ := ih cs2 rem hc
      exact ⟨pre ++ pre2, by simp⟩

theorem consumes_length (items : List RItem) (cs rem : List Char)
    (h : Consumes items cs rem) : rem.length ≤ cs.length := by
  obtain ⟨pre, rfl⟩ := consumes_suffix items cs rem h
  simp

theorem append_split (pre cs2 m rest : List Char) (h : pre ++ cs2 = m ++ rest)
    (hle : rest.length ≤ cs2.length) : ∃ m2, m = pre ++ m2 ∧ cs2 = m2 ++ rest := by
  rcases List.append_eq_append_iff.mp h with ⟨a2, ha, hb⟩ | ⟨c2, hc, hd⟩
  · exact ⟨a2, ha, hb⟩
  · have hc0 : c2 = [] := by
      have hlen := congrArg List.length hd
      simp only [List.length_append] at hlen
      have h0 : c2.length = 0 := by omega
      exact List.length_eq_zero.mp h0
    subst hc0
    exact ⟨[], by simp [hc], by simp [hd]⟩

theorem consumes_cancel : ∀ (items : List RItem) (m rest : List Char),
    Consumes items (m ++ rest) rest → Consumes items m [] := by
  intro items
  induction items with
  | nil =>
    intro m rest h
    simp only [Consumes] at h ⊢
    have hlen := congrArg List.length h
    simp only [List.length_append] at hlen
    have h0 : m.length = 0 := by omega
    exact List.length_eq_zero.mp h0
  | cons it its ih =>
    intro m rest h
    cases it with
    | lit l =>
      simp only [Consumes] at h ⊢
      obtain ⟨pre, cs2, heq, hf, hc⟩ := h
      obtain ⟨m2, hm, hcs2⟩ := append_split pre cs2 m rest heq.symm
        (consumes_length its cs2 rest hc)
      subst hcs2
      exact ⟨pre, m2, hm, hf, ih m2 rest hc⟩
    | cls p =>
      simp only [Consumes] at h ⊢
      obtain ⟨c, cs2, heq, hp, hc⟩ := h
      have heq2 : [c] ++ cs2 = m ++ rest := by simp [heq.symm]
      obtain ⟨m2, hm, hcs2⟩ := append_split [c] cs2 m rest heq2
        (consumes_length its cs2 rest hc)
      subst hcs2
      refine ⟨c, m2, ?_, hp, ih m2 rest hc⟩
      simpa using hm
    | starCls p =>
      simp only [Consumes] at h ⊢
      obtain ⟨pre, cs2, heq, hall, hc⟩ := h
      obtain ⟨m2, hm, hcs2⟩ := append_split pre cs2 m rest heq.symm
        (consumes_length its cs2 rest hc)
      subst hcs2
      exact ⟨pre, m2, hm, hall, ih m2 rest hc⟩
    | grpAlt2 a b =>
      simp only [Consumes] at h ⊢
      obtain ⟨pre, cs2, heq, hab, hc⟩ := h
      obtain ⟨m2, hm, hcs2⟩ := append_split pre cs2 m rest heq.symm
        (consumes_length its cs2 rest hc)
      subst hcs2
      exact ⟨pre, m2, hm, hab, ih m2 rest hc⟩

theorem findM_sound : ∀ (pat : List RItem) (cs : List Char) (i len : Nat)
    (caps : List (List Char)), findM pat cs = some (i, len, caps) →
    i + len ≤ cs.length ∧ matchItems pat (cs.drop i) = some (cs.drop (i + len), caps) := by
  intro pat cs
  induction cs with
  | nil =>
    intro i len caps h
    cases hm : matchItems pat [] with
    | none =>
      simp only [findM, hm] at h
      exact Option.noConfusion h
    | some rc =>
      obtain ⟨rem, caps2⟩ := rc
      simp only [findM, hm, Option.some.injEq, Prod.mk.injEq] at h
      obtain ⟨hi, hlen, hcaps⟩ := h
      have hmg : matchGo pat.length pat [] = some (rem, caps2) := hm
      have hrem : rem = [] := by
        have hle := consumes_length pat [] rem (matchGo_sound pat.length pat [] rem caps2 hmg)
        simp only [List.length_nil, Nat.le_zero] at hle
        exact List.length_eq_zero.mp hle
      subst hrem
      subst hi
      subst hcaps
      simp only [List.length_nil, Nat.zero_sub] at hlen
      subst hlen
      exact ⟨by omega, by simpa using hm⟩
  | cons c cs2 ih =>
    intro i len caps h
    cases hm : matchItems pat (c :: cs2) with
    | some rc =>
      obtain ⟨rem, caps2⟩ := rc
      simp only [findM, hm, Option.some.injEq, Prod.mk.injEq] at h
      obtain ⟨hi, hlen, hcaps⟩ := h
      have hmg : matchGo pat.length pat (c :: cs2) = some (rem, caps2) := hm
      obtain ⟨pre, hpre⟩ :=
        consumes_suffix pat (c :: cs2) rem (matchGo_sound pat.length pat (c :: cs2) rem caps2 hmg)
      have hplen : pre.length + rem.length = (c :: cs2).length := by
        rw [hpre, List.length_append]
      subst hi
      subst hcaps
      have hlen2 : len = pre.length := by omega
      constructor
      · omega
      · have hdrop : (c :: cs2).drop len = rem := by
          rw [hlen2, hpre, List.drop_left]
        rw [List.drop_zero, Nat.zero_add, hdrop]
        exact hm
    | none =>
      cases hf2 : findM pat cs2 with
      | none =>
        simp only [findM, hm, hf2] at h
        exact Option.noConfusion h
      | some rc =>
        obtain ⟨i2, len2, caps2⟩ := rc
        simp only [findM, hm, hf2, Option.some.injEq, Prod.mk.injEq] at h
        obtain ⟨hi, hlen, hcaps⟩ := h
        obtain ⟨hb, hmi⟩ := ih i2 len2 caps2 hf2
        subst hi
        subst hlen
        subst hcaps
        constructor
        · simp only [List.length_cons]
          omega
        · have e1 : (c :: cs2).drop (i2 + 1) = cs2.drop i2 := List.drop_succ_cons
          have e2 : (c :: cs2).drop (i2 + 1 + len2) = cs2.drop (i2 + len2) := by
            have hadd : i2 + 1 + len2 = (i2 + len2) + 1 := by omega
            rw [hadd]
            exact List.drop_succ_cons
          rw [e1, e2]
          exact hmi

theorem matchItems_lit_head_length (l : List Char) (rest : List RItem)
    (cs rem : List Char) (caps : List (List Char))
    (h : matchItems (RItem.lit l :: rest) cs = some (rem, caps)) :
    rem.length + l.length ≤ cs.length := by
  simp only [matchItems, List.length_cons] at h
  cases hs : stripCI l cs with
  | none =>
    simp only [matchGo, hs] at h
    exact Option.noConfusion h
  | some cs2 =>
    simp only [matchGo, hs] at h
    have h1 := stripCI_length l cs cs2 hs
    have h2 := consumes_length rest cs2 rem (matchGo_sound rest.length rest cs2 rem caps h)
    omega

theorem findM_linkRe_pos (fn : String) (cs : List Char) (i len : Nat)
    (caps : List (List Char)) (h : findM (linkRe fn) cs = some (i, len, caps)) :
    0 < len := by
  obtain ⟨hb, hmi⟩ := findM_sound (linkRe fn) cs i len caps h
  by_contra hc
  have hlen0 : len = 0 := by omega
  subst hlen0
  rw [Nat.add_zero] at hmi
  have hre : linkRe fn = RItem.lit "<link".data
      :: [RItem.starCls notGt, RItem.lit "href=".data, RItem.cls isQuoteC,
          RItem.starCls notQuote, RItem.lit fn.data, RItem.cls isQuoteC,
          RItem.starCls notGt, RItem.lit ">".data] := rfl
  rw [hre] at hmi
  have hlelen := matchItems_lit_head_length "<link".data _ (cs.drop i) (cs.drop i) caps hmi
  have h5 : ("<link".data).length = 5 := rfl
  omega

theorem leftmostCover_matches (pat : List RItem) :
    ∀ (ps : List (List Char × List Char)) (tail : List Char),
      LeftmostCover pat ps tail → ∀ p ∈ ps, Consumes pat p.2 [] := by
  intro ps
  induction ps with
  | nil => intro tail _ p hp; exact absurd hp (List.not_mem_nil p)
  | cons q qs ih =>
    intro tail h p hp
    simp only [LeftmostCover] at h
    obtain ⟨⟨caps, hfind⟩, hrest⟩ := h
    rcases List.mem_cons.mp hp with rfl | hp2
    · obtain ⟨hb, hmi⟩ := findM_sound pat _ _ _ _ hfind
      have e1 : (p.1 ++ (p.2 ++ ((qs.map (fun r => r.1 ++ r.2)).join ++ tail))).drop p.1.length
          = p.2 ++ ((qs.map (fun r => r.1 ++ r.2)).join ++ tail) :=
        List.drop_left p.1 (p.2 ++ ((qs.map (fun r => r.1 ++ r.2)).join ++ tail))
      have e2 : (p.1 ++ (p.2 ++ ((qs.map (fun r => r.1 ++ r.2)).join ++ tail))).drop
            (p.1.length + p.2.length)
          = (qs.map (fun r => r.1 ++ r.2)).join ++ tail := by
        rw [show p.1 ++ (p.2 ++ ((qs.map (fun r => r.1 ++ r.2)).join ++ tail))
            = (p.1 ++ p.2) ++ ((qs.map (fun r => r.1 ++ r.2)).join ++ tail) from
          (List.append_assoc p.1 p.2 ((qs.map (fun r => r.1 ++ r.2)).join ++ tail)).symm]
        rw [show p.1.length + p.2.length = (p.1 ++ p.2).length from
          (List.length_append p.1 p.2).symm]
        exact List.drop_left (p.1 ++ p.2) ((qs.map (fun r => r.1 ++ r.2)).join ++ tail)
      rw [List.append_assoc] at hmi
      rw [e1, e2] at hmi
      have hmg : matchGo pat.length pat
          (p.2 ++ ((qs.map (fun r => r.1 ++ r.2)).join ++ tail))
          = some ((qs.map (fun r => r.1 ++ r.2)).join ++ tail, caps) := hmi
      exact consumes_cancel pat p.2 ((qs.map (fun r => r.1 ++ r.2)).join ++ tail)
        (matchGo_sound pat.length pat _ _ caps hmg)
    · exact ih tail hrest p hp2

theorem replaceGo_spec (pat : List RItem) (rep : List Char) (hrep : Char.ofNat 36 ∉ rep)
    (hpos : ∀ (cs : List Char) (i len : Nat) (caps : List (List Char)),
      findM pat cs = some (i, len, caps) → 0 < len) :
    ∀ (fuel : Nat) (s before : List Char), s.length ≤ fuel →
      ∃ (ps : List (List Char × List Char)) (tail : List Char),
        s = (ps.map (fun p => p.1 ++ p.2)).join ++ tail
        ∧ replaceGo pat rep fuel before s = (ps.map (fun p => p.1 ++ rep)).join ++ tail
        ∧ LeftmostCover pat ps tail
        ∧ findM pat tail = none := by
  have hnilM : findM pat [] = none := by
    cases hm : findM pat [] with
    | none => rfl
    | some r =>
      obtain ⟨i, len, caps⟩ := r
      have h1 := hpos [] i len caps hm
      have h2 := findM_nil_len pat i len caps hm
      omega
  intro fuel
  induction fuel with
  | zero =>
    intro s before hs
    have hnil : s = [] := List.length_eq_zero.mp (Nat.le_zero.mp hs)
    subst hnil
    exact ⟨[], [], by simp, by simp [replaceGo_nil], by simp only [LeftmostCover], hnilM⟩
  | succ fuel ih =>
    intro s before hs
    cases hf : findM pat s with
    | none =>
      refine ⟨[], s, by simp, ?_, by simp only [LeftmostCover], hf⟩
      simp only [replaceGo, hf, List.map_nil, List.join_nil, List.nil_append]
    | some r =>
      obtain ⟨i, len, caps⟩ := r
      have hlen := hpos s i len caps hf
      obtain ⟨hb, hmi⟩ := findM_sound pat s i len caps hf
      have hslen : 1 ≤ s.length := by omega
      have hdlen : (s.drop (i + len)).length ≤ fuel := by
        rw [List.length_drop]
        omega
      obtain ⟨ps2, tail, hdec, hout, hcov, hnone⟩ :=
        ih (s.drop (i + len)) (before ++ s.take (i + len)) hdlen
      have hdd : (s.drop i).drop len = s.drop (i + len) := by
        rw [List.drop_drop]
      have h1 : (s.drop i).take len ++ s.drop (i + len) = s.drop i := by
        rw [← hdd]
        exact List.take_append_drop len (s.drop i)
      have hsplit : s = s.take i ++ ((s.drop i).take len ++ s.drop (i + len)) := by
        rw [h1, List.take_append_drop]
      have htk : (s.take i).length = i := by
        rw [List.length_take]
        exact Nat.min_eq_left (by omega)
      have htk2 : ((s.drop i).take len).length = len := by
        rw [List.length_take, List.length_drop]
        exact Nat.min_eq_left (by omega)
      refine ⟨(s.take i, (s.drop i).take len) :: ps2, tail, ?_, ?_, ?_, hnone⟩
      · simp only [List.map_cons, List.join_cons]
        rw [List.append_assoc, List.append_assoc, ← hdec]
        exact hsplit
      · simp only [replaceGo, hf, if_neg (Nat.pos_iff_ne_zero.mp hlen)]
        rw [expandRep_no_dollar rep hrep, hout]
        simp only [List.map_cons, List.join_cons]
        simp [List.append_assoc]
      · simp only [LeftmostCover]
        refine ⟨⟨caps, ?_⟩, hcov⟩
        show findM pat ((s.take i ++ (s.drop i).take len)
              ++ ((ps2.map (fun q => q.1 ++ q.2)).join ++ tail))
            = some ((s.take i).length, ((s.drop i).take len).length, caps)
        have harg : (s.take i ++ (s.drop i).take len)
              ++ ((ps2.map (fun q => q.1 ++ q.2)).join ++ tail) = s := by
          rw [List.append_assoc, ← hdec]
          exact hsplit.symm
        rw [harg, htk, htk2]
        exact hf

/-- C5 (counterexample): the claim says the inliner replaces only the first
`<link>` tag referencing `theme.css`, leaving other occurrences to the
remaining steps.  On an HTML text with two such tags and a file set whose
only entry is `theme.css`, `_inlineResources` replaces both (the regex
carries the `g` flag), so the output is two `<style>` blocks rather than a
`<style>` block followed by the untouched second link tag. -/
theorem c5_counterexample :
    _inlineResources "<link href=\"theme.css\"><link href=\"theme.css\">"
        [("theme.css", FileContent.text "CSSTEXT")]
      = styleTagOf "CSSTEXT" ++ styleTagOf "CSSTEXT"
    ∧ styleTagOf "CSSTEXT" ++ styleTagOf "CSSTEXT"
      ≠ styleTagOf "CSSTEXT" ++ "<link href=\"theme.css\">" := by
  constructor
  · decide
  · decide

/-- C5 (amended): for every HTML text and every file set whose `theme.css`
entry is a non-empty text without `$`, the inliner replaces EVERY `<link>`
tag referencing `theme.css` — not only the first — with the inline `<style>`
block containing that CSS text verbatim: the input decomposes into the
successive leftmost matches of the link regex, each is substituted by the
style block, and no match remains in the tail; every replaced segment is a
full match of the link pattern (`<link`, attributes, a quoted href ending in
`theme.css`, `>`). -/
theorem c5_theme_inlines_every_link (html css : String) (files : FileSet)
    (hl : lookupFS files "theme.css" = some (FileContent.text css))
    (hne : css ≠ "") (hd : Char.ofNat 36 ∉ css.data) :
    ∃ (ps : List (List Char × List Char)) (tail : List Char),
      html.data = (ps.map (fun p => p.1 ++ p.2)).join ++ tail
      ∧ (themePass html files).data
          = (ps.map (fun p => p.1 ++ (styleTagOf css).data)).join ++ tail
      ∧ LeftmostCover (linkRe "theme.css") ps tail
      ∧ (∀ p ∈ ps, Consumes (linkRe "theme.css") p.2 [])
      ∧ findM (linkRe "theme.css") tail = none := by
  have hth : themePass html files
      = replaceAllJS (linkRe "theme.css") (styleTagOf css) html := by
    simp only [themePass, hl]
    rw [if_neg hne]
  obtain ⟨ps, tail, h1, h2, h3, h4⟩ := replaceGo_spec (linkRe "theme.css")
    (styleTagOf css).data (styleTagOf_no_dollar css hd)
    (fun cs i len caps hf => findM_linkRe_pos "theme.css" cs i len caps hf)
    html.data.length html.data [] (le_refl _)
  refine ⟨ps, tail, h1, ?_, h3,
    leftmostCover_matches (linkRe "theme.css") ps tail h3, h4⟩
  rw [hth, replaceAllJS]
  exact h2

/-- C5 (witness): the amended theorem applied to an HTML text with two
differently shaped theme links (uppercase tag, extra attributes, prefixed
path, plain form) against a three-entry file set. -/
theorem c5_witness :
    (lookupFS [("index.html", FileContent.text "<p></p>"),
        ("theme.css", FileContent.text "BODY"),
        ("logo.png", FileContent.bytes [7])] "theme.css"
      = some (FileContent.text "BODY")
    ∧ ("BODY" : String) ≠ "" ∧ Char.ofNat 36 ∉ ("BODY" : String).data)
    ∧ ∃ (ps : List (List Char × List Char)) (tail : List Char),
        ("<p><LINK rel=\"x\" href=\"a/theme.css\"><link href=\"theme.css\"></p>"
            : String).data
          = (ps.map (fun p => p.1 ++ p.2)).join ++ tail
        ∧ (themePass "<p><LINK rel=\"x\" href=\"a/theme.css\"><link href=\"theme.css\"></p>"
            [("index.html", FileContent.text "<p></p>"),
             ("theme.css", FileContent.text "BODY"),
             ("logo.png", FileContent.bytes [7])]).data
          = (ps.map (fun p => p.1 ++ (styleTagOf "BODY").data)).join ++ tail
        ∧ LeftmostCover (linkRe "theme.css") ps tail
        ∧ (∀ p ∈ ps, Consumes (linkRe "theme.css") p.2 [])
        ∧ findM (linkRe "theme.css") tail = none :=
  ⟨⟨rfl, by decide, by decide⟩,
   c5_theme_inlines_every_link
     "<p><LINK rel=\"x\" href=\"a/theme.css\"><link href=\"theme.css\"></p>" "BODY"
     [("index.html", FileContent.text "<p></p>"),
      ("theme.css", FileContent.text "BODY"),
      ("logo.png", FileContent.bytes [7])] rfl (by decide) (by decide)⟩

/-- C8: the resource inliner is idempotent on its own output when that
output contains no remaining reference matching any inlinable entry of the
file set: if none of the patterns `_inlineResources` would apply (the
`theme.css` link pattern, the link pattern of each other CSS text entry,
the `src`/`href` pattern of each image byte entry) matches the output,
re-running the inliner returns the output unchanged. -/
theorem c8_inline_idempotent (html : String) (files : FileSet)
    (h : ∀ p ∈ inlinePatterns files,
      findM p (_inlineResources html files).data = none) :
    _inlineResources (_inlineResources html files) files
      = _inlineResources html files := by
  set s := _inlineResources html files with hs
  rw [_inlineResources]
  have hth : themePass s files = s := by
    cases hl : lookupFS files "theme.css" with
    | none => simp only [themePass, hl]
    | some c =>
      cases c with
      | text css =>
        by_cases hcss : css = ""
        · simp only [themePass, hl, if_pos hcss]
        · simp only [themePass, hl, if_neg hcss]
          apply replaceAllJS_nomatch
          apply h
          simp only [inlinePatterns, hl, if_neg hcss]
          apply List.mem_append_left
          apply List.mem_append_left
          simp
      | bytes bs => simp only [themePass, hl]
  rw [hth]
  have hcssfold : files.foldl cssPassStep s = s := by
    apply cssFold_id
    intro e he content hc hcond
    apply h
    rw [inlinePatterns]
    apply List.mem_append_left
    apply List.mem_append_right
    apply List.mem_filterMap.mpr
    refine ⟨e, he, ?_⟩
    simp [hc, hcond]
  rw [hcssfold]
  apply imgFold_id
  intro e he bs hb hcond
  apply h
  rw [inlinePatterns]
  apply List.mem_append_right
  apply List.mem_filterMap.mpr
  refine ⟨e, he, ?_⟩
  simp [hb, hcond]

/-- C8 (witness): a file set whose inlined output has no remaining
references, with the idempotence conclusion at that input. -/
theorem c8_witness :
    (∀ p ∈ inlinePatterns
        [("index.html", FileContent.text "<p>hi</p>"),
         ("theme.css", FileContent.text "BODYCSS")],
      findM p (_inlineResources "<p>hi</p>"
        [("index.html", FileContent.text "<p>hi</p>"),
         ("theme.css", FileContent.text "BODYCSS")]).data = none)
    ∧ _inlineResources (_inlineResources "<p>hi</p>"
        [("index.html", FileContent.text "<p>hi</p>"),
         ("theme.css", FileContent.text "BODYCSS")])
        [("index.html", FileContent.text "<p>hi</p>"),
         ("theme.css", FileContent.text "BODYCSS")]
      = _inlineResources "<p>hi</p>"
        [("index.html", FileContent.text "<p>hi</p>"),
         ("theme.css", FileContent.text "BODYCSS")] :=
  ⟨by decide, c8_inline_idempotent _ _ (by decide)⟩

/-- C6: `validateOptions {quality: 150}` is invalid with an error message
mentioning 150, and `validateOptions {format:'png', quality:50}` is valid
with the ignored-quality warning; in general an out-of-range quality always
yields an error (with the message mentioning the value) making the result
invalid, while an in-range quality supplied with format `png` yields only
the warning and a valid result. -/
theorem c6_quality_validation :
    validateOptions { quality := some 150 }
      = ⟨false, some ["质量参数必须在 1-100 之间，当前值: 150"], none⟩
    ∧ validateOptions { format := some "png", quality := some 50 }
      = ⟨true, none, some ["PNG 格式忽略质量参数"]⟩
    ∧ (∀ (o : ImageConversionOptions) (q : Rat), o.quality = some q →
        (q < 1 ∨ q > 100) →
        (validateOptions o).valid = false
        ∧ ("质量参数必须在 1-100 之间，当前值: " ++ ratStr q)
            ∈ (validateOptions o).errors.getD [])
    ∧ (∀ q : Rat, 1 ≤ q → q ≤ 100 →
        validateOptions { format := some "png", quality := some q }
          = ⟨true, none, some ["PNG 格式忽略质量参数"]⟩) := by
  refine ⟨by decide, by decide, ?_, ?_⟩
  · intro o q hq hrange
    have hqe : qualityErrs o = ["质量参数必须在 1-100 之间，当前值: " ++ ratStr q] := by
      simp only [qualityErrs, hq]
      rw [if_pos hrange]
    have hmem : ("质量参数必须在 1-100 之间，当前值: " ++ ratStr q)
        ∈ (formatErrs o ++ qualityErrs o ++ scaleErrs o ++ widthErrs o
            ++ heightErrs o ++ waitErrs o) := by
      rw [hqe]
      simp [List.mem_append]
    have hlen : (formatErrs o ++ qualityErrs o ++ scaleErrs o ++ widthErrs o
        ++ heightErrs o ++ waitErrs o).length ≠ 0 := by
      intro h0
      rw [List.length_eq_zero] at h0
      rw [h0] at hmem
      exact List.not_mem_nil _ hmem
    constructor
    · rw [show (validateOptions o).valid
          = ((formatErrs o ++ qualityErrs o ++ scaleErrs o ++ widthErrs o
              ++ heightErrs o ++ waitErrs o).length == 0) from rfl]
      rw [beq_eq_false_iff_ne]
      exact hlen
    · rw [show (validateOptions o).errors
          = (if 0 < (formatErrs o ++ qualityErrs o ++ scaleErrs o ++ widthErrs o
              ++ heightErrs o ++ waitErrs o).length
             then some (formatErrs o ++ qualityErrs o ++ scaleErrs o ++ widthErrs o
              ++ heightErrs o ++ waitErrs o) else none) from rfl]
      rw [if_pos (Nat.pos_of_ne_zero hlen)]
      simpa using hmem
  · intro q h1 h100
    have hqe : qualityErrs { format := some "png", quality := some q } = [] := by
      simp only [qualityErrs]
      rw [if_neg (by push_neg; constructor <;> linarith)]
    have hf : formatErrs ({ format := some "png", quality := some q }
        : ImageConversionOptions) = [] := rfl
    have hsc : scaleErrs ({ format := some "png", quality := some q }
        : ImageConversionOptions) = [] := rfl
    have hw : widthErrs ({ format := some "png", quality := some q }
        : ImageConversionOptions) = [] := rfl
    have hh : heightErrs ({ format := some "png", quality := some q }
        : ImageConversionOptions) = [] := rfl
    have hwt : waitErrs ({ format := some "png", quality := some q }
        : ImageConversionOptions) = [] := rfl
    have hqw : qualityWarns ({ format := some "png", quality := some q }
        : ImageConversionOptions) = ["PNG 格式忽略质量参数"] := rfl
    have htw : transparentWarns ({ format := some "png", quality := some q }
        : ImageConversionOptions) = [] := rfl
    simp only [validateOptions, hf, hqe, hsc, hw, hh, hwt, hqw, htw]
    rfl

/-- C10: validating the empty options record yields `valid:true` with both
the `errors` and `warnings` fields absent; in general the fields are
omitted (never an empty array) when nothing was collected, and `valid`
holds exactly when `errors` is absent. -/
theorem c10_validation_fields :
    validateOptions {} = ⟨true, none, none⟩
    ∧ (∀ o : ImageConversionOptions,
        ((validateOptions o).valid = true ↔ (validateOptions o).errors = none))
    ∧ (∀ o : ImageConversionOptions,
        (validateOptions o).errors ≠ some [] ∧ (validateOptions o).warnings ≠ some []) := by
  refine ⟨by decide, ?_, ?_⟩
  · intro o
    rw [show (validateOptions o).valid
        = ((formatErrs o ++ qualityErrs o ++ scaleErrs o ++ widthErrs o
            ++ heightErrs o ++ waitErrs o).length == 0) from rfl]
    rw [show (validateOptions o).errors
        = (if 0 < (formatErrs o ++ qualityErrs o ++ scaleErrs o ++ widthErrs o
            ++ heightErrs o ++ waitErrs o).length
           then some (formatErrs o ++ qualityErrs o ++ scaleErrs o ++ widthErrs o
            ++ heightErrs o ++ waitErrs o) else none) from rfl]
    generalize (formatErrs o ++ qualityErrs o ++ scaleErrs o ++ widthErrs o
      ++ heightErrs o ++ waitErrs o) = L
    cases L with
    | nil => simp
    | cons x xs => simp
  · intro o
    constructor
    · rw [show (validateOptions o).errors
          = (if 0 < (formatErrs o ++ qualityErrs o ++ scaleErrs o ++ widthErrs o
              ++ heightErrs o ++ waitErrs o).length
             then some (formatErrs o ++ qualityErrs o ++ scaleErrs o ++ widthErrs o
              ++ heightErrs o ++ waitErrs o) else none) from rfl]
      generalize (formatErrs o ++ qualityErrs o ++ scaleErrs o ++ widthErrs o
        ++ heightErrs o ++ waitErrs o) = L
      cases L with
      | nil => simp
      | cons x xs => simp
    · rw [show (validateOptions o).warnings
          = (if 0 < (qualityWarns o ++ transparentWarns o).length
             then some (qualityWarns o ++ transparentWarns o) else none) from rfl]
      generalize (qualityWarns o ++ transparentWarns o) = W
      cases W with
      | nil => simp
      | cons x xs => simp

/-- C6 (witness): the general conjuncts applied at quality 150 and at
quality 50 with format png. -/
theorem c6_witness :
    ((({ quality := some 150 } : ImageConversionOptions).quality = some 150
        ∧ ((150 : Rat) < 1 ∨ (150 : Rat) > 100))
      ∧ (validateOptions { quality := some 150 }).valid = false)
    ∧ ((1 : Rat) ≤ 50 ∧ (50 : Rat) ≤ 100
      ∧ validateOptions { format := some "png", quality := some (50 : Rat) }
        = ⟨true, none, some ["PNG 格式忽略质量参数"]⟩) :=
  ⟨⟨⟨rfl, by decide⟩,
    (c6_quality_validation.2.2.1 { quality := some 150 } 150 rfl (by decide)).1⟩,
   ⟨by decide, by decide, c6_quality_validation.2.2.2 50 (by decide) (by decide)⟩⟩

/-- C10 (witness): the general conjuncts applied at the empty record and at
a record with an invalid scale. -/
theorem c10_witness :
    ((validateOptions ({} : ImageConversionOptions)).valid = true
      ↔ (validateOptions ({} : ImageConversionOptions)).errors = none)
    ∧ (validateOptions ({ scale := some 5 } : ImageConversionOptions)).errors ≠ some []
    ∧ (validateOptions ({ scale := some 5 } : ImageConversionOptions)).warnings ≠ some [] :=
  ⟨c10_validation_fields.2.1 {}, c10_validation_fields.2.2 { scale := some 5 }⟩

/-- C1: whenever the merge of the supplied options with the defaults fails
validation, `convert` returns a failure result with error code
`CONV-IMG-006` (`INVALID_FORMAT`) and an empty event trace — in particular
the HTML-generation collaborator is never called and no render or
screenshot is attempted. -/
theorem c1_invalid_options_fail_fast (o : ImageConversionOptions) (env : ConvertEnv)
    (h : (validateOptions (_mergeOptions o)).valid = false) :
    (convert o env).1.success = false
    ∧ ((convert o env).1.error).map ErrInfo.code = some "CONV-IMG-006"
    ∧ (convert o env).2 = []
    ∧ CEv.callHtml ∉ (convert o env).2 ∧ CEv.renderCall ∉ (convert o env).2 := by
  have hcv : convert o env
      = (_createErrorResult env.taskId "CONV-IMG-006"
          (match (validateOptions (_mergeOptions o)).errors with
           | some es => String.intercalate "; " es
           | none => "选项验证失败") env.elapsed none, []) := by
    simp only [convert, h, if_true, eq_self_iff_true]
  rw [hcv]
  exact ⟨rfl, rfl, rfl, List.not_mem_nil _, List.not_mem_nil _⟩

/-- C1 (witness): an options record whose quality is out of range, with an
arbitrary concrete environment. -/
theorem c1_witness :
    (validateOptions (_mergeOptions { quality := some 150 })).valid = false
    ∧ ((convert { quality := some 150 }
          (mkConvertEnv true none (mkRenderEnv true 0 0 []) (Except.ok ()))).1.success
        = false
      ∧ ((convert { quality := some 150 }
          (mkConvertEnv true none (mkRenderEnv true 0 0 []) (Except.ok ()))).1.error).map
            ErrInfo.code = some "CONV-IMG-006"
      ∧ (convert { quality := some 150 }
          (mkConvertEnv true none (mkRenderEnv true 0 0 []) (Except.ok ()))).2 = []) := by
  refine ⟨by decide, ?_⟩
  have := c1_invalid_options_fail_fast { quality := some 150 }
    (mkConvertEnv true none (mkRenderEnv true 0 0 []) (Except.ok ())) (by decide)
  exact ⟨this.1, this.2.1, this.2.2.1⟩

/-- C9: when the merged options fail validation, the progress observer is
never invoked — the delivered event stream is empty even though an observer
was supplied. -/
theorem c9_no_progress_on_invalid (o : ImageConversionOptions) (env : ConvertEnv)
    (_hobs : o.hasOnProgress = true)
    (h : (validateOptions (_mergeOptions o)).valid = false) :
    deliveredEvents o env = [] := by
  have htr : (convert o env).2 = [] := by
    simp only [convert, h, if_true, eq_self_iff_true]
  rw [deliveredEvents, htr]
  cases (_mergeOptions o).hasOnProgress with
  | false => rfl
  | true => rfl

/-- C9 (witness): an observer together with an invalid waitTime. -/
theorem c9_witness :
    (({ waitTime := some (-5), hasOnProgress := true }
        : ImageConversionOptions).hasOnProgress = true
      ∧ (validateOptions (_mergeOptions
          { waitTime := some (-5), hasOnProgress := true })).valid = false)
    ∧ deliveredEvents { waitTime := some (-5), hasOnProgress := true }
        (mkConvertEnv false none (mkRenderEnv false 0 0 []) (Except.ok ())) = [] :=
  ⟨⟨rfl, by decide⟩, c9_no_progress_on_invalid _ _ rfl (by decide)⟩

/-- C2: for every file set without an `index.html` text entry,
`_renderHTMLToImage` fails with the missing-`index.html` error before the
browser launch (the trace contains no `launch` event), and the orchestrator
converts this thrown error into a failed conversion result carrying that
message (under the catch-all `SCREENSHOT_FAILED` code). -/
theorem c2_missing_index_fails_before_launch (files : FileSet)
    (opts : ImageConversionOptions) (renv : RenderEnv)
    (hp : renv.puppeteerOk = true) (hidx : hasIndexText files = false) :
    (_renderHTMLToImage files opts renv).1 = Except.error noIndexMsg
    ∧ REv.launch ∉ (_renderHTMLToImage files opts renv).2
    ∧ (∀ (o2 : ImageConversionOptions) (env2 : ConvertEnv),
        (validateOptions (_mergeOptions o2)).valid = true →
        env2.htmlSuccess = true → env2.htmlFiles = some files →
        env2.renderEnv = renv →
        (convert o2 env2).1.success = false
        ∧ (convert o2 env2).1.error
            = some ⟨"CONV-IMG-004", noIndexMsg, some noIndexMsg⟩) := by
  have hrender : ∀ o3 : ImageConversionOptions,
      _renderHTMLToImage files o3 renv = (Except.error noIndexMsg, [REv.importP]) := by
    intro o3
    cases hl : lookupFS files "index.html" with
    | none => simp [_renderHTMLToImage, hp, hl]
    | some c =>
      cases c with
      | text s =>
        exfalso
        rw [hasIndexText, hl] at hidx
        exact Bool.noConfusion hidx
      | bytes b => simp [_renderHTMLToImage, hp, hl]
  refine ⟨by rw [hrender opts], by rw [hrender opts]; decide, ?_⟩
  intro o2 env2 hv hhs hhf hre
  have hvne : ¬((validateOptions (_mergeOptions o2)).valid = false) := by
    rw [hv]; exact fun hc => Bool.noConfusion hc
  have hc : convert o2 env2
      = (_createErrorResult env2.taskId "CONV-IMG-004" noIndexMsg env2.elapsed
          (some noIndexMsg), trRenderFail) := by
    simp only [convert]
    rw [if_neg hvne]
    simp only [hhs, hhf]
    rw [hre, hrender (_mergeOptions o2)]
    rfl
  rw [hc]
  exact ⟨rfl, by trivial⟩

/-- C2 (witness): an empty file set with a working puppeteer, and the
orchestrator conjunct applied at a concrete options/environment pair. -/
theorem c2_witness :
    ((mkRenderEnv true 0 0 []).puppeteerOk = true ∧ hasIndexText [] = false
      ∧ (validateOptions (_mergeOptions {})).valid = true)
    ∧ (_renderHTMLToImage [] {} (mkRenderEnv true 0 0 [])).1 = Except.error noIndexMsg
    ∧ REv.launch ∉ (_renderHTMLToImage [] {} (mkRenderEnv true 0 0 [])).2
    ∧ ((convert {} (mkConvertEnv true (some []) (mkRenderEnv true 0 0 [])
          (Except.ok ()))).1.success = false
      ∧ (convert {} (mkConvertEnv true (some []) (mkRenderEnv true 0 0 [])
          (Except.ok ()))).1.error
        = some ⟨"CONV-IMG-004", noIndexMsg, some noIndexMsg⟩) := by
  have h := c2_missing_index_fails_before_launch [] {} (mkRenderEnv true 0 0 [])
    rfl rfl
  exact ⟨⟨rfl, rfl, by decide⟩, h.1, h.2.1,
    h.2.2 {} (mkConvertEnv true (some []) (mkRenderEnv true 0 0 []) (Except.ok ()))
      (by decide) rfl rfl rfl⟩

/-- C7: on the successful render path, the reported width and height are the
measured content dimensions (the maximum of the body/root scroll, offset
and client extents) multiplied by the device-scale factor
(`options.scale ?? 1`) and rounded half-up to the nearest integer — the
rounded value is within 1/2 of the exact product, and for scale 1 it equals
the measured dimension exactly. -/
theorem c7_dimensions (files : FileSet) (opts : ImageConversionOptions)
    (renv : RenderEnv) (s : String)
    (hp : renv.puppeteerOk = true)
    (hidx : lookupFS files "index.html" = some (FileContent.text s))
    (hne : s ≠ "") (hpe : renv.pageError = none) :
    (_renderHTMLToImage files opts renv).1
      = Except.ok (renv.screenshot,
          jsRound ((envWidth renv : Rat) * opts.scale.getD 1),
          jsRound ((envHeight renv : Rat) * opts.scale.getD 1))
    ∧ |(jsRound ((envWidth renv : Rat) * opts.scale.getD 1) : Rat)
        - (envWidth renv : Rat) * opts.scale.getD 1| ≤ 1/2
    ∧ |(jsRound ((envHeight renv : Rat) * opts.scale.getD 1) : Rat)
        - (envHeight renv : Rat) * opts.scale.getD 1| ≤ 1/2
    ∧ (opts.scale.getD 1 = 1 →
        jsRound ((envWidth renv : Rat) * opts.scale.getD 1) = (envWidth renv : Int)
        ∧ jsRound ((envHeight renv : Rat) * opts.scale.getD 1)
            = (envHeight renv : Int)) := by
  refine ⟨?_, jsRound_abs _, jsRound_abs _, ?_⟩
  · simp only [_renderHTMLToImage]
    rw [hp]
    rw [if_neg (show ¬(true = false) from fun hc => Bool.noConfusion hc)]
    simp only [hidx]
    rw [if_neg hne]
    simp only [hpe]
    rw [mkRat_mul_nat (envWidth renv) (opts.scale.getD 1),
      mkRat_mul_nat (envHeight renv) (opts.scale.getD 1)]
  · intro h1
    rw [h1, mul_one, mul_one]
    exact ⟨jsRound_natCast _, jsRound_natCast _⟩

/-- C7 (witness): a one-entry file set rendered with default options in an
environment measuring 100 × 50. -/
theorem c7_witness :
    ((mkRenderEnv true 100 50 [9]).puppeteerOk = true
      ∧ lookupFS [("index.html", FileContent.text "<p>x</p>")] "index.html"
          = some (FileContent.text "<p>x</p>")
      ∧ ("<p>x</p>" : String) ≠ ""
      ∧ (mkRenderEnv true 100 50 [9]).pageError = none
      ∧ ({} : ImageConversionOptions).scale.getD 1 = 1)
    ∧ (_renderHTMLToImage [("index.html", FileContent.text "<p>x</p>")] {}
        (mkRenderEnv true 100 50 [9])).1
      = Except.ok ((mkRenderEnv true 100 50 [9]).screenshot,
          jsRound ((envWidth (mkRenderEnv true 100 50 [9]) : Rat)
            * ({} : ImageConversionOptions).scale.getD 1),
          jsRound ((envHeight (mkRenderEnv true 100 50 [9]) : Rat)
            * ({} : ImageConversionOptions).scale.getD 1))
    ∧ jsRound ((envWidth (mkRenderEnv true 100 50 [9]) : Rat)
        * ({} : ImageConversionOptions).scale.getD 1)
      = (envWidth (mkRenderEnv true 100 50 [9]) : Int) := by
  have h := c7_dimensions [("index.html", FileContent.text "<p>x</p>")] {}
    (mkRenderEnv true 100 50 [9]) "<p>x</p>" rfl rfl (by decide) rfl
  exact ⟨⟨rfl, rfl, by decide, rfl, rfl⟩, h.1, (h.2.2.2 rfl).1⟩

theorem convert_trace_cases (o : ImageConversionOptions) (env : ConvertEnv) :
    ((convert o env).2 = [] ∧ (convert o env).1.success = false)
    ∨ ((convert o env).2 = trHtmlFail ∧ (convert o env).1.success = false)
    ∨ ((convert o env).2 = trRenderFail ∧ (convert o env).1.success = false)
    ∨ ((convert o env).2 = trWriteFail ∧ (convert o env).1.success = false)
    ∨ ((convert o env).2 = trOkPath ∧ (convert o env).1.success = true)
    ∨ ((convert o env).2 = trOkData ∧ (convert o env).1.success = true) := by
  by_cases hv : (validateOptions (_mergeOptions o)).valid = false
  · have hc : convert o env
        = (_createErrorResult env.taskId "CONV-IMG-006"
            (match (validateOptions (_mergeOptions o)).errors with
             | some es => String.intercalate "; " es
             | none => "选项验证失败") env.elapsed none, []) := by
      simp only [convert, hv, if_true, eq_self_iff_true]
    left
    rw [hc]
    exact ⟨rfl, by trivial⟩
  · cases hhs : env.htmlSuccess with
    | false =>
      right; left
      have hc : (convert o env).2 = trHtmlFail ∧ (convert o env).1.success = false := by
        cases hhf : env.htmlFiles with
        | none =>
          simp only [convert]
          rw [if_neg hv]
          simp only [hhs, hhf]
          exact ⟨rfl, by trivial⟩
        | some files =>
          simp only [convert]
          rw [if_neg hv]
          simp only [hhs, hhf]
          exact ⟨rfl, by trivial⟩
      exact hc
    | true =>
      cases hhf : env.htmlFiles with
      | none =>
        right; left
        simp only [convert]
        rw [if_neg hv]
        simp only [hhs, hhf]
        exact ⟨rfl, by trivial⟩
      | some files =>
        rcases hr : (_renderHTMLToImage files (_mergeOptions o) env.renderEnv).1 with
          msg | ⟨img, w2, h2⟩
        · right; right; left
          simp only [convert]
          rw [if_neg hv]
          simp only [hhs, hhf, hr]
          exact ⟨rfl, by trivial⟩
        · by_cases ht : truthyS (_mergeOptions o).outputPath = true
          · cases hw : env.writeResult with
            | error msg =>
              right; right; right; left
              simp only [convert]
              rw [if_neg hv]
              simp only [hhs, hhf, hr]
              rw [if_pos ht]
              simp only [hw]
              exact ⟨rfl, by trivial⟩
            | ok u =>
              right; right; right; right; left
              simp only [convert]
              rw [if_neg hv]
              simp only [hhs, hhf, hr]
              rw [if_pos ht]
              simp only [hw]
              exact ⟨rfl, by trivial⟩
          · right; right; right; right; right
            simp only [convert]
            rw [if_neg hv]
            simp only [hhs, hhf, hr]
            rw [if_neg ht]
            exact ⟨rfl, by trivial⟩

/-- C4 (counterexample): with an observer supplied and a render failure
(the generated files lack `index.html`), the delivered percent sequence is
0, 30, 40, 0 — the final `failed` event always carries percent 0, so the
sequence is not monotonically non-decreasing as the claim states. -/
theorem c4_counterexample :
    deliveredEvents { hasOnProgress := true }
        (mkConvertEnv true (some [("a", FileContent.text "x")])
          (mkRenderEnv true 0 0 []) (Except.ok ()))
      = [(PStatus.convertingHtml, 0), (PStatus.rendering, 30),
         (PStatus.rendering, 40), (PStatus.failed, 0)]
    ∧ nondecreasing ((deliveredEvents { hasOnProgress := true }
        (mkConvertEnv true (some [("a", FileContent.text "x")])
          (mkRenderEnv true 0 0 []) (Except.ok ()))).map Prod.snd) = false := by
  constructor
  · decide
  · decide

/-- C4 (amended): the percent sequence delivered to the observer is
monotonically non-decreasing on every successful `convert` call; on failure
the final `failed` event always carries percent 0, which may undercut the
percents already reported.  A `failed` event, when delivered, is always the
last event of the stream. -/
theorem c4_progress_shape (o : ImageConversionOptions) (env : ConvertEnv) :
    ((convert o env).1.success = true →
      nondecreasing ((deliveredEvents o env).map Prod.snd) = true)
    ∧ ∀ e ∈ (deliveredEvents o env).dropLast, e.1 ≠ PStatus.failed := by
  rw [deliveredEvents]
  cases hop : (_mergeOptions o).hasOnProgress with
  | false =>
    rw [if_neg (show ¬(false = true) from fun hc => Bool.noConfusion hc)]
    exact ⟨fun _ => rfl, fun e he => absurd he (List.not_mem_nil e)⟩
  | true =>
    rw [if_pos rfl]
    rcases convert_trace_cases o env with ⟨ht, hs⟩ | ⟨ht, hs⟩ | ⟨ht, hs⟩
      | ⟨ht, hs⟩ | ⟨ht, hs⟩ | ⟨ht, hs⟩ <;> rw [ht] <;>
      refine ⟨fun hsucc => ?_, by decide⟩
    · decide
    · rw [hs] at hsucc; exact Bool.noConfusion hsucc
    · rw [hs] at hsucc; exact Bool.noConfusion hsucc
    · rw [hs] at hsucc; exact Bool.noConfusion hsucc
    · decide
    · decide

/-- C4 (witness): a successful call with an observer, showing the delivered
percents non-decreasing, and the failed-last property at that input. -/
theorem c4_witness :
    ((convert { hasOnProgress := true }
        (mkConvertEnv true (some [("index.html", FileContent.text "<p>x</p>")])
          (mkRenderEnv true 100 50 [1]) (Except.ok ()))).1.success = true
      ∧ nondecreasing ((deliveredEvents { hasOnProgress := true }
          (mkConvertEnv true (some [("index.html", FileContent.text "<p>x</p>")])
            (mkRenderEnv true 100 50 [1]) (Except.ok ()))).map Prod.snd) = true)
    ∧ ∀ e ∈ (deliveredEvents { hasOnProgress := true }
        (mkConvertEnv true (some [("index.html", FileContent.text "<p>x</p>")])
          (mkRenderEnv true 100 50 [1]) (Except.ok ()))).dropLast,
        e.1 ≠ PStatus.failed :=
  ⟨⟨by decide,
    (c4_progress_shape { hasOnProgress := true }
      (mkConvertEnv true (some [("index.html", FileContent.text "<p>x</p>")])
        (mkRenderEnv true 100 50 [1]) (Except.ok ()))).1 (by decide)⟩,
   (c4_progress_shape { hasOnProgress := true }
     (mkConvertEnv true (some [("index.html", FileContent.text "<p>x</p>")])
       (mkRenderEnv true 100 50 [1]) (Except.ok ()))).2⟩

/-- C3 (counterexample): when `outputPath` is the empty string, the
successful result populates BOTH fields: `outputPath` echoes the empty
string while the truthiness test on it fails, so `data` carries the image
bytes as well — refuting the claim that exactly one of the two is set. -/
theorem c3_counterexample :
    (convert { outputPath := some "" }
        (mkConvertEnv true (some [("index.html", FileContent.text "<p>x</p>")])
          (mkRenderEnv true 100 50 [1, 2, 3]) (Except.ok ()))).1.success = true
    ∧ (convert { outputPath := some "" }
        (mkConvertEnv true (some [("index.html", FileContent.text "<p>x</p>")])
          (mkRenderEnv true 100 50 [1, 2, 3]) (Except.ok ()))).1.outputPath = some ""
    ∧ (convert { outputPath := some "" }
        (mkConvertEnv true (some [("index.html", FileContent.text "<p>x</p>")])
          (mkRenderEnv true 100 50 [1, 2, 3]) (Except.ok ()))).1.data = some [1, 2, 3] := by
  refine ⟨by decide, by decide, by decide⟩

/-- C3 (amended): in every successful result the `outputPath` field echoes
the requested output path verbatim, and `data` is populated exactly when the
requested path is not truthy: omitted (`none`) or non-empty paths behave as
the claim says, while the empty string yields both fields populated. -/
theorem c3_payload_shape (o : ImageConversionOptions) (env : ConvertEnv)
    (hsucc : (convert o env).1.success = true) :
    (convert o env).1.outputPath = o.outputPath
    ∧ (o.outputPath = none → (convert o env).1.data ≠ none)
    ∧ (∀ p, o.outputPath = some p → p ≠ "" → (convert o env).1.data = none)
    ∧ (o.outputPath = some "" → (convert o env).1.data ≠ none) := by
  by_cases hv : (validateOptions (_mergeOptions o)).valid = false
  · exfalso
    have hc : (convert o env).1.success = false := by
      simp only [convert, hv, if_true, eq_self_iff_true]
      rfl
    rw [hc] at hsucc
    exact Bool.noConfusion hsucc
  · have hout : (_mergeOptions o).outputPath = o.outputPath := rfl
    cases hhs : env.htmlSuccess with
    | false =>
      exfalso
      have hc : (convert o env).1.success = false := by
        cases hhf : env.htmlFiles with
        | none =>
          simp only [convert]
          rw [if_neg hv]
          simp only [hhs, hhf]
        | some files =>
          simp only [convert]
          rw [if_neg hv]
          simp only [hhs, hhf]
      rw [hc] at hsucc
      exact Bool.noConfusion hsucc
    | true =>
      cases hhf : env.htmlFiles with
      | none =>
        exfalso
        have hc : (convert o env).1.success = false := by
          simp only [convert]
          rw [if_neg hv]
          simp only [hhs, hhf]
        rw [hc] at hsucc
        exact Bool.noConfusion hsucc
      | some files =>
        rcases hr : (_renderHTMLToImage files (_mergeOptions o) env.renderEnv).1 with
          msg | ⟨img, w2, h2⟩
        · exfalso
          have hc : (convert o env).1.success = false := by
            simp only [convert]
            rw [if_neg hv]
            simp only [hhs, hhf, hr]
            rfl
          rw [hc] at hsucc
          exact Bool.noConfusion hsucc
        · by_cases ht : truthyS (_mergeOptions o).outputPath = true
          · cases hw : env.writeResult with
            | error msg =>
              exfalso
              have hc : (convert o env).1.success = false := by
                simp only [convert]
                rw [if_neg hv]
                simp only [hhs, hhf, hr]
                rw [if_pos ht]
                simp only [hw]
                rfl
              rw [hc] at hsucc
              exact Bool.noConfusion hsucc
            | ok u =>
              have hc : (convert o env).1
                  = { success := true, taskId := env.taskId,
                      outputPath := (_mergeOptions o).outputPath,
                      data := if truthyS (_mergeOptions o).outputPath then none
                              else some img,
                      format := (_mergeOptions o).format, width := some w2,
                      height := some h2, duration := some env.elapsed } := by
                simp only [convert]
                rw [if_neg hv]
                simp only [hhs, hhf, hr]
                rw [if_pos ht]
                simp only [hw]
              rw [hc]
              refine ⟨hout, ?_, ?_, ?_⟩
              · intro hnone
                exfalso
                rw [hout, hnone] at ht
                exact Bool.noConfusion ht
              · intro p hp hne
                simp only [if_pos ht]
              · intro hemp
                exfalso
                rw [hout, hemp] at ht
                exact Bool.noConfusion ht
          · have hc : (convert o env).1
                = { success := true, taskId := env.taskId,
                    outputPath := (_mergeOptions o).outputPath,
                    data := if truthyS (_mergeOptions o).outputPath then none
                            else some img,
                    format := (_mergeOptions o).format, width := some w2,
                    height := some h2, duration := some env.elapsed } := by
              simp only [convert]
              rw [if_neg hv]
              simp only [hhs, hhf, hr]
              rw [if_neg ht]
            rw [hc]
            refine ⟨hout, ?_, ?_, ?_⟩
            · intro hnone
              simp only [if_neg ht]
              exact fun hc2 => Option.noConfusion hc2
            · intro p hp hne
              exfalso
              apply ht
              rw [hout, hp]
              simp only [truthyS]
              exact bne_iff_ne.mpr hne
            · intro hemp
              simp only [if_neg ht]
              exact fun hc2 => Option.noConfusion hc2

/-- C3 (witness): a successful conversion with a non-empty output path,
exercising the amended payload theorem at a concrete input. -/
theorem c3_witness :
    (convert { outputPath := some "/tmp/a.png" }
        (mkConvertEnv true (some [("index.html", FileContent.text "<p>x</p>")])
          (mkRenderEnv true 100 50 [1, 2, 3]) (Except.ok ()))).1.success = true
    ∧ (convert { outputPath := some "/tmp/a.png" }
        (mkConvertEnv true (some [("index.html", FileContent.text "<p>x</p>")])
          (mkRenderEnv true 100 50 [1, 2, 3]) (Except.ok ()))).1.outputPath
        = some "/tmp/a.png"
    ∧ (convert { outputPath := some "/tmp/a.png" }
        (mkConvertEnv true (some [("index.html", FileContent.text "<p>x</p>")])
          (mkRenderEnv true 100 50 [1, 2, 3]) (Except.ok ()))).1.data = none :=
  ⟨by decide,
   (c3_payload_shape { outputPath := some "/tmp/a.png" }
     (mkConvertEnv true (some [("index.html", FileContent.text "<p>x</p>")])
       (mkRenderEnv true 100 50 [1, 2, 3]) (Except.ok ())) (by decide)).1,
   (c3_payload_shape { outputPath := some "/tmp/a.png" }
     (mkConvertEnv true (some [("index.html", FileContent.text "<p>x</p>")])
       (mkRenderEnv true 100 50 [1, 2, 3]) (Except.ok ())) (by decide)).2.2.1
     "/tmp/a.png" rfl (by decide)⟩
